import Mathlib

/-!
worldiety/enum: registry of sum-type declarations and the tagged JSON codec.

A shallow embedding of `options.go`, `open.go`, `json/encode_enum.go` and
`json/decode_enum.go`, followed by the theorems that settle the claims of the
specification.

Conventions of the embedding:

* `reflect.Type` is a record `RType` (an identity and the result of `Name()`).
* a Go `map[K]V` of the configuration is a lookup function `K → Option V`;
* a Go interface value that may be `nil` is an `Option`;
* a panic, and an error handed to `e.error`, is the `Except.error` branch.
-/

namespace Enum

/-! ## options.go -/

/-- Stand-in for `reflect.Type`: two types are the same type when both fields agree; `Name` is what
`reflect.Type.Name()` returns (types declared in different scopes may share it). -/
structure RType where
  id : Nat
  Name : String
deriving DecidableEq, Repr

/-- The values of the `JSON` option interface set by the tagging options. -/
inductive JSON where
  | ExternallyOptions
  | AdjacentlyOptions (Tag : String) (Content : String)
  | InternallyOptions (Tag : String)
  | UntaggedOptions
deriving DecidableEq, Repr

/-- The `enumCfg` struct of options.go. `jsonOpts` is an interface value, hence nil-able. -/
structure enumCfg where
  noZero : Bool
  sealed : Bool
  fromNameToType : String → Option RType
  fromTypeToName : RType → Option String
  jsonOpts : Option JSON

/-- Go map assignment `m[k] = v`. -/
def mapSet {K V : Type} [DecidableEq K] (m : K → Option V) (k : K) (v : V) : K → Option V :=
  fun x => if x = k then some v else m x

/-- The closures built by the option constructors of options.go. The interface method `apply` is
unexported, so these are all the non-nil `Option` values a caller can build. -/
inductive optFunc where
  | Rename (t : RType) (name : String)
  | NoZero
  | Sealed
  | Adjacently (tagName : String) (contentName : String)
  | Externally
  | Internally (tagName : String)
deriving DecidableEq, Repr

/-- The body of each closure: `func (f optFunc) apply(enumCfg *enumCfg)`. -/
def optFunc.apply : optFunc → enumCfg → enumCfg
  | .Rename t name, c => { c with fromTypeToName := mapSet c.fromTypeToName t name }
  | .NoZero, c => { c with noZero := true }
  | .Sealed, c => { c with sealed := true }
  | .Adjacently tagName contentName, c =>
      { c with jsonOpts := some (JSON.AdjacentlyOptions tagName contentName) }
  | .Externally, c => { c with jsonOpts := some JSON.ExternallyOptions }
  | .Internally tagName, c => { c with jsonOpts := some (JSON.InternallyOptions tagName) }

/-- `Rename[T](name)`. -/
def Rename (t : RType) (name : String) : Option optFunc := some (.Rename t name)

/-- `NoZero()`. -/
def NoZero : Option optFunc := some .NoZero

/-- `Sealed()`. -/
def Sealed : Option optFunc := some .Sealed

/-- `Adjacently(tagName, contentName)`. -/
def Adjacently (tagName contentName : String) : Option optFunc :=
  some (.Adjacently tagName contentName)

/-- `Externally()`. -/
def Externally : Option optFunc := some .Externally

/-- `Internally(tagName)`. -/
def Internally (tagName : String) : Option optFunc := some (.Internally tagName)

/-- `Untagged()`: the source returns the nil interface value. -/
def Untagged : Option optFunc := none

/-- The method call `opt.apply(&decl.cfg)` on an interface value: a nil receiver panics. -/
def applyOption (opt : Option optFunc) (c : enumCfg) : Except String enumCfg :=
  match opt with
  | some f => .ok (f.apply c)
  | none => .error "runtime error: invalid memory address or nil pointer dereference"

/-- The loop `for _, opt := range opts { opt.apply(&decl.cfg) }`. -/
def applyAll : List (Option optFunc) → enumCfg → Except String enumCfg
  | [], c => .ok c
  | opt :: rest, c =>
      match applyOption opt c with
      | .ok c1 => applyAll rest c1
      | .error e => .error e

/-! ## open.go -/

/-- Modelled from the spec: the `Declaration` record, whose declaration is outside the given
sources; `variants` and `cfg` are the fields open.go reads and writes, `enumType` the sum-type
identity it is registered under. -/
structure Declaration where
  enumType : RType
  variants : List RType
  cfg : enumCfg

/-- Modelled from the spec: `resolveName(declaration, variantIdentity) -> name | absent`, the
accessor `decl.Name` the encoder calls. -/
def Declaration.Name (d : Declaration) (t : RType) : Option String := d.cfg.fromTypeToName t

/-- Modelled from the spec: `resolveType(declaration, name) -> VariantIdentity | absent`, the
accessor `decl.Type` the decoder calls. -/
def Declaration.Type (d : Declaration) (name : String) : Option RType := d.cfg.fromNameToType name

/-- Modelled from the spec: the accessor `decl.JSON()` giving the tagging strategy. -/
def Declaration.JSON (d : Declaration) : Option JSON := d.cfg.jsonOpts

/-- `func (c enumCfg) NoZero() bool`, reached as `decl.NoZero()`. -/
def Declaration.NoZero (d : Declaration) : Bool := d.cfg.noZero

/-- `func (c enumCfg) Sealed() bool`, reached through the declaration. -/
def Declaration.Sealed (d : Declaration) : Bool := d.cfg.sealed

/-- The process-wide table `globalDeclContext.decls`. -/
structure declContext where
  decls : RType → Option Declaration

/-- Modelled from the spec: `lookup(identity) -> Declaration | absent`, the function
`DeclarationOf` that open.go and the codec call. -/
def DeclarationOf (g : declContext) (t : RType) : Option Declaration := g.decls t

/-- Modelled from the spec: the configuration of a newly created Declaration (empty maps, not
sealed, empty value allowed, tagging strategy Externally). -/
def defaultCfg : enumCfg :=
  { noZero := false, sealed := false, fromNameToType := fun _ => none,
    fromTypeToName := fun _ => none, jsonOpts := some JSON.ExternallyOptions }

/-- Modelled from the spec: `declare(identity, variants[], options[])` for the matcher type
`func(func(any))`, which lists no variant (the only way open.go calls `Declare`): fetch or create
the Declaration, apply the options in order, store it. -/
def Declare (g : declContext) (eType : RType) (opts : List (Option optFunc)) :
    Except String declContext :=
  let decl : Declaration :=
    match DeclarationOf g eType with
    | some d => d
    | none => { enumType := eType, variants := [], cfg := defaultCfg }
  match applyAll opts decl.cfg with
  | .ok c => .ok { decls := mapSet g.decls eType { decl with cfg := c } }
  | .error e => .error e

/-- The critical section of `Variant`, from `mutex.Lock()` to the store into
`globalDeclContext.decls`, on the Declaration value `decl`. `impl` is the outcome of
`mType.Implements(eType)`. -/
def addVariant (impl : Bool) (decl : Declaration) (mType : RType)
    (opts : List (Option optFunc)) : Except String Declaration :=
  if !impl then
    .error "member type does not implement the enum type"
  else
    -- decl.variants = slices.DeleteFunc(decl.variants, func(r) bool { return mType == r })
    let deleted := decl.variants.filter (fun r => !decide (mType = r))
    let fallbackName := mType.Name
    -- decl.variants = append(decl.variants, mType)
    let variants := deleted ++ [mType]
    -- decl.cfg.fromTypeToName[mType] = fallbackName
    let cfg0 := { decl.cfg with fromTypeToName := mapSet decl.cfg.fromTypeToName mType fallbackName }
    match applyAll opts cfg0 with
    | .error e => .error e
    | .ok cfg1 =>
        -- newName := decl.cfg.fromTypeToName[mType]
        let newName := (cfg1.fromTypeToName mType).getD ""
        -- decl.cfg.fromNameToType[newName] = mType
        let cfg2 := { cfg1 with fromNameToType := mapSet cfg1.fromNameToType newName mType }
        .ok { decl with variants := variants, cfg := cfg2 }

/-- `Variant[Interface, Member](opts...)`: `eType` and `mType` are `reflect.TypeFor` of the two
type parameters, `Implements` is `reflect.Type.Implements`. A panic is the error branch; success
returns the updated table. -/
def Variant (Implements : RType → RType → Bool) (g : declContext) (eType mType : RType)
    (opts : List (Option optFunc)) : Except String declContext :=
  let found : Except String (declContext × Declaration) :=
    match DeclarationOf g eType with
    | some decl => .ok (g, decl)
    | none =>
        match Declare g eType opts with
        | .error e => .error e
        | .ok g1 =>
            match DeclarationOf g1 eType with
            | some decl => .ok (g1, decl)
            | none => .error "can't add variant to an enum"
  match found with
  | .error e => .error e
  | .ok (g1, decl) =>
      match addVariant (Implements mType eType) decl mType opts with
      | .error e => .error e
      | .ok decl1 => .ok { decls := mapSet g1.decls eType decl1 }

/-- Successive `Variant` calls for one sum type, each with its member type and option list. -/
def VariantAll (Implements : RType → RType → Bool) (g : declContext) (eType : RType) :
    List (RType × List (Option optFunc)) → Except String declContext
  | [] => .ok g
  | call :: rest =>
      match Variant Implements g eType call.1 call.2 with
      | .ok g1 => VariantAll Implements g1 eType rest
      | .error e => .error e

/-- Mutual consistency of the two name maps of a Declaration. -/
def Declaration.Consistent (d : Declaration) : Prop :=
  ∀ t n, d.Name t = some n ↔ d.Type n = some t

/-- The state a `Variant` call works on. `table` is `globalDeclContext.decls`. `decl` is the
local variable: a copy of the stored struct, whose two maps are the very maps of the stored
Declaration and whose slice `variants` shares its backing array with the stored slice. `stored`
is what the stored slice shows of that array, an element cleared by `slices.DeleteFunc` reading
as nil. -/
structure VariantState where
  table : declContext
  decl : Declaration
  stored : List (Option RType)

/-- How a run of statements ends: normally, or in a panic, each with the state reached. The
state of a panic is absent where it is raised inside `Declare`, whose statements are outside
the given sources, or with `decl` still the zero value. -/
inductive Run where
  | done (s : VariantState)
  | panic (msg : String) (s : Option VariantState)

/-- A statement that updates `decl.cfg` by `f`: the fields of the local copy change, and what
`f` writes into the two maps shows in the Declaration stored under `eType` as well, the maps
being shared; the flags and the strategy of the stored Declaration stay. -/
def applyToState (eType : RType) (f : enumCfg → enumCfg) (s : VariantState) : VariantState :=
  { s with
    decl := { s.decl with cfg := f s.decl.cfg },
    table := ⟨fun k =>
      if k = eType then
        (s.table.decls k).map (fun d =>
          { d with cfg := { d.cfg with
              fromNameToType := (f d.cfg).fromNameToType,
              fromTypeToName := (f d.cfg).fromTypeToName } })
      else s.table.decls k⟩ }

/-- The loop `for _, opt := range opts { opt.apply(&decl.cfg) }` on the state. -/
def runOptions (eType : RType) : List (Option optFunc) → VariantState → Run
  | [], s => .done s
  | none :: _, s =>
      .panic "runtime error: invalid memory address or nil pointer dereference" (some s)
  | some f :: rest, s => runOptions eType rest (applyToState eType f.apply s)

/-- The critical section of `Variant`, statement by statement, from `mutex.Lock()` on. -/
def runLocked (impl : Bool) (eType mType : RType) (opts : List (Option optFunc))
    (s : VariantState) : Run :=
  -- if !mType.Implements(eType) { panic(...) }
  if !impl then .panic "member type does not implement the enum type" (some s)
  else
    -- decl.variants = slices.DeleteFunc(decl.variants, ...): compacts the shared array in place
    let kept := s.decl.variants.filter (fun r => !decide (mType = r))
    let s1 : VariantState :=
      { s with
        decl := { s.decl with variants := kept },
        stored := kept.map some ++ List.replicate (s.decl.variants.length - kept.length) none }
    let fallbackName := mType.Name
    -- decl.variants = append(decl.variants, mType): written in place where the array has room
    let s2 : VariantState :=
      { s1 with
        decl := { s1.decl with variants := s1.decl.variants ++ [mType] },
        stored := s1.stored.set s1.decl.variants.length (some mType) }
    -- decl.cfg.fromTypeToName[mType] = fallbackName
    let s3 := applyToState eType
      (fun c => { c with fromTypeToName := mapSet c.fromTypeToName mType fallbackName }) s2
    match runOptions eType opts s3 with
    | .panic msg st => .panic msg st
    | .done s4 =>
        -- newName := decl.cfg.fromTypeToName[mType]
        let newName := (s4.decl.cfg.fromTypeToName mType).getD ""
        -- decl.cfg.fromNameToType[newName] = mType
        let s5 := applyToState eType
          (fun c => { c with fromNameToType := mapSet c.fromNameToType newName mType }) s4
        -- globalDeclContext.decls[eType] = decl
        .done { s5 with
          table := ⟨mapSet s5.table.decls eType s5.decl⟩,
          stored := s5.decl.variants.map some }

/-- `Variant[Interface, Member](opts...)` run statement by statement on the table, keeping the
state reached at a panic; it ends normally exactly when `Variant` returns, with the same
table. -/
def VariantRun (Implements : RType → RType → Bool) (g : declContext) (eType mType : RType)
    (opts : List (Option optFunc)) : Run :=
  match DeclarationOf g eType with
  | some decl =>
      runLocked (Implements mType eType) eType mType opts ⟨g, decl, decl.variants.map some⟩
  | none =>
      match Declare g eType opts with
      | .error msg => .panic msg none
      | .ok g1 =>
          match DeclarationOf g1 eType with
          | some decl =>
              runLocked (Implements mType eType) eType mType opts
                ⟨g1, decl, decl.variants.map some⟩
          | none => .panic "can't add variant to an enum" none

/-- The tagging strategy an option selects, when it is `Externally()`, `Adjacently(..)` or
`Internally(..)`. -/
def strategyOf : Option optFunc → Option JSON
  | some (.Adjacently tagName contentName) => some (JSON.AdjacentlyOptions tagName contentName)
  | some .Externally => some JSON.ExternallyOptions
  | some (.Internally tagName) => some (JSON.InternallyOptions tagName)
  | _ => none

/-- The strategy selected by the last strategy option of an option list, if there is one. -/
def lastStrategy (opts : List (Option optFunc)) : Option JSON :=
  (opts.filterMap strategyOf).getLast?

/-- The name an option gives to the type `m`, when it is a `Rename[m](name)`. -/
def renameOf (m : RType) : Option optFunc → Option String
  | some (.Rename t name) => if t = m then some name else none
  | _ => none

/-- The name given to `m` by the last `Rename[m]` of an option list, if there is one. -/
def lastRename (m : RType) (opts : List (Option optFunc)) : Option String :=
  (opts.filterMap (renameOf m)).getLast?

/-- An option list for the registration of `m` that holds no nil option and no `Rename` of a
type other than `m`. -/
def renamesOnly (m : RType) (opts : List (Option optFunc)) : Prop :=
  ∀ o ∈ opts, ∃ f, o = some f ∧ ∀ t n, f = optFunc.Rename t n → t = m

/-- The name `Variant[I, m](opts...)` registers `m` under: the one given by the last
`Rename[m]` of `opts`, else the type name of `m`. -/
def registeredName (m : RType) (opts : List (Option optFunc)) : String :=
  (lastRename m opts).getD m.Name

/-- The invariant carried along a sequence of registrations: the maps are consistent and every
named type bears a name that the relation `R` assigns to it. -/
def NamedBy (R : RType → String → Prop) (d : Declaration) : Prop :=
  d.Consistent ∧ ∀ t n, d.Name t = some n → R t n

/-! ## The external collaborators of the codec -/

/-- Wire bytes: the content of a `bytes.Buffer`, a `[]byte` or a `RawMessage`. -/
abbrev Bytes := List Char

/-- The kinds of `reflect.Kind`. -/
inductive Kind where
  | Invalid | Bool | Int | Int8 | Int16 | Int32 | Int64
  | Uint | Uint8 | Uint16 | Uint32 | Uint64 | Uintptr
  | Float32 | Float64 | Complex64 | Complex128
  | Array | Chan | Func | Interface | Map | Pointer | Slice | String | Struct | UnsafePointer
deriving DecidableEq, Repr

/-- The encoder options read by the enum encoders. -/
structure encOpts where
  quoted : Bool
  escapeHTML : Bool
deriving DecidableEq, Repr

/-- A `reflect.Value` of an interface-typed location, as handed to `interfaceEncoder` and
`interfaceDecoder`: `Typ` is the static interface type (`v.Type()`), `Elem` the dynamic value
(`v.Elem()`), absent for the nil interface. -/
structure Iface (Value : Type) where
  Typ : RType
  Elem : Option Value

/-- `v.IsNil()`. -/
def Iface.IsNil {Value : Type} (v : Iface Value) : Bool := v.Elem.isNone

/-- `v.Kind()` of the interface-typed value itself: the Declaration is found under `v.Type()`,
an interface type, so the kind reported for `v` is `Interface` whatever the dynamic value is. -/
def Iface.Kind {Value : Type} (_v : Iface Value) : Kind := Kind.Interface

/-- Modelled from the spec: the generic value codec and reflection, the external collaborators
whose code is outside the given sources, taken as parameters. `typeOf` is `v.Elem().Type()`,
`appendString s escapeHTML` the quoted wire form of `s`, `unquote` its inverse with the `ok`
flag, `reflectValue` the generic encoder `e.reflectValue` on a dynamic value (the bytes it
appends, or the error it raises), `reflectInterface` the same entered with the interface value
itself, `Unmarshal t data` the call `Unmarshal(data, &targetVar)` with `targetVar` holding a
new value of type `t` (the error, or the content of `targetVar` on a nil return: absent when the
decoder has set `targetVar` to nil, as it does for the payload `null`), and
`object` the parse of a wire object into its `map[string]RawMessage` (an association list with
distinct keys). -/
structure Codec (Value : Type) where
  typeOf : Value → RType
  appendString : String → Bool → Bytes
  unquote : Bytes → Option String
  reflectValue : Value → encOpts → Except String Bytes
  reflectInterface : Iface Value → encOpts → Except String Bytes
  Unmarshal : RType → Bytes → Except String (Option Value)
  object : Bytes → Except String (List (String × Bytes))

/-- Modelled from the spec: the wire form of an object whose members are given as already quoted
keys with their raw values: the members joined by commas between braces. -/
def renderObject (fields : List (Bytes × Bytes)) : Bytes :=
  ['{'] ++ List.intercalate [','] (fields.map (fun f => f.1 ++ [':'] ++ f.2)) ++ ['}']

/-! ## json/encode_enum.go -/

/-- `encodeExternally`: `e` is the buffer content on entry, the result the content on return. -/
def encodeExternally {Value : Type} (C : Codec Value) (e : Bytes) (v : Iface Value)
    (opts : encOpts) (decl : Declaration) : Except String Bytes :=
  match v.Elem with
  | none => .error "reflect: call of reflect.Value.Type on zero Value"
  | some x =>
      let e := e ++ ['{']
      match decl.Name (C.typeOf x) with
      | none => .error "json: undeclared external type name for interface variant type"
      | some externalName =>
          let e := e ++ C.appendString externalName opts.quoted
          let e := e ++ [':']
          match C.reflectValue x opts with
          | .error err => .error err
          | .ok bs => .ok (e ++ bs ++ ['}'])

/-- `encodeAdjacently`. -/
def encodeAdjacently {Value : Type} (C : Codec Value) (e : Bytes) (v : Iface Value)
    (opts : encOpts) (decl : Declaration) (Tag Content : String) : Except String Bytes :=
  match v.Elem with
  | none => .error "reflect: call of reflect.Value.Type on zero Value"
  | some x =>
      let e := e ++ ['{']
      let e := e ++ C.appendString Tag opts.quoted
      let e := e ++ [':']
      match decl.Name (C.typeOf x) with
      | none => .error "json: undeclared external type name for interface variant type"
      | some externalName =>
          let e := e ++ C.appendString externalName opts.quoted
          let e := e ++ [',']
          let e := e ++ C.appendString Content opts.quoted
          let e := e ++ [':']
          match C.reflectValue x opts with
          | .error err => .error err
          | .ok bs => .ok (e ++ bs ++ ['}'])

/-- The kinds the `switch v.Kind()` of `encodeInternally` rejects. -/
def nonObjectKind : Kind → Bool
  | .Int | .Int8 | .Int16 | .Int32 | .Int64 => true
  | .Uint | .Uint8 | .Uint16 | .Uint32 | .Uint64 | .Uintptr => true
  | .Float32 | .Float64 => true
  | .String | .Bool => true
  | _ => false

/-- `e.Truncate(e.Len() - 1)`: panics on an empty buffer. -/
def truncateLast (e : Bytes) : Except String Bytes :=
  if e.length = 0 then .error "bytes.Buffer: truncation out of range"
  else .ok (e.take (e.length - 1))

/-- `encodeInternally`. The kind switch inspects `v`, the interface-typed value. -/
def encodeInternally {Value : Type} (C : Codec Value) (e : Bytes) (v : Iface Value)
    (opts : encOpts) (decl : Declaration) (Tag : String) : Except String Bytes :=
  if nonObjectKind v.Kind then
    .error "cannot encode non-object kind value as internally tagged"
  else
    match v.Elem with
    | none => .error "reflect: call of reflect.Value.Type on zero Value"
    | some x =>
        -- write the normal object
        match C.reflectValue x opts with
        | .error err => .error err
        | .ok bs =>
            -- step back
            match truncateLast (e ++ bs) with
            | .error err => .error err
            | .ok e1 =>
                -- append the type tag
                let e2 := e1 ++ [',']
                let e3 := e2 ++ C.appendString Tag opts.quoted
                let e4 := e3 ++ [':']
                match decl.Name (C.typeOf x) with
                | none => .error "json: undeclared external type name for interface variant type"
                | some externalName =>
                    .ok (e4 ++ C.appendString externalName opts.quoted ++ ['}'])

/-- `interfaceEncoder`: the encoder installed for interface-typed values. -/
def interfaceEncoder {Value : Type} (C : Codec Value) (g : declContext) (e : Bytes)
    (v : Iface Value) (opts : encOpts) : Except String Bytes :=
  match DeclarationOf g v.Typ with
  | none =>
      -- fallback to default stdlib behavior
      match v.Elem with
      | none => .ok (e ++ "null".toList)
      | some x =>
          match C.reflectValue x opts with
          | .error err => .error err
          | .ok bs => .ok (e ++ bs)
  | some decl =>
      if v.IsNil then
        if decl.NoZero then .error "json: nil is not allowed for interface"
        else .ok (e ++ "null".toList)
      else
        match decl.JSON with
        | some JSON.ExternallyOptions => encodeExternally C e v opts decl
        | some (JSON.AdjacentlyOptions Tag Content) => encodeAdjacently C e v opts decl Tag Content
        | some (JSON.InternallyOptions Tag) => encodeInternally C e v opts decl Tag
        | some JSON.UntaggedOptions =>
            match C.reflectInterface v opts with
            | .error err => .error err
            | .ok bs => .ok (e ++ bs)
        | none => .error "json: unsupported JSON option type"

/-! ## json/decode_enum.go -/

/-- The order in which a `range` statement visits the entries of a map. -/
abbrev RangeOrder := List (String × Bytes) → List (String × Bytes)

/-- Map index `obj[key]` on a `map[string]RawMessage`: the nil (empty) message when absent. -/
def mapIndex (obj : List (String × Bytes)) (key : String) : Bytes :=
  (obj.lookup key).getD []

/-- `bufferObjectRoundTrip`. -/
def bufferObjectRoundTrip {Value : Type} (C : Codec Value) (range : RangeOrder)
    (obj : List (String × Bytes)) : Bytes :=
  let buf : Bytes := ['{']
  let buf := (range obj).foldl
    (fun buf km => buf ++ C.appendString km.1 false ++ [':'] ++ km.2 ++ [',']) buf
  let buf := if obj.length > 0 then buf.take (buf.length - 1) else buf
  buf ++ ['}']

/-- The outcome of a decode function: the returned error (absent for `nil`), the content of the
caller-supplied interface location `v` afterwards, and the panic value when the function
panics instead of returning. -/
structure Decoded (Value : Type) where
  err : Option String
  v : Option Value
  panic : Option String

/-- The tail shared by the three decode functions: resolve the tag, decode `data` into a new
value of the variant type, and store it with `v.Set(reflect.ValueOf(targetVar).Elem())`. When
`Unmarshal` returns nil but has set `targetVar` to nil, `reflect.ValueOf(targetVar)` is the zero
Value and `Elem()` panics before `v.Set` is reached. -/
def decodeVariant {Value : Type} (C : Codec Value) (decl : Declaration) (kindTag : String)
    (data : Bytes) (v : Option Value) : Decoded Value :=
  match decl.Type kindTag with
  | none => ⟨some "unknown type tag for declaration", v, none⟩
  | some variantT =>
      match C.Unmarshal variantT data with
      | .error err => ⟨some err, v, none⟩
      | .ok none => ⟨none, v, some "reflect: call of reflect.Value.Elem on zero Value"⟩
      | .ok (some targetVar) => ⟨none, some targetVar, none⟩

/-- `decodeInternally`. -/
def decodeInternally {Value : Type} (C : Codec Value) (raw : Bytes)
    (obj : List (String × Bytes)) (v : Option Value) (decl : Declaration) (Tag : String) :
    Decoded Value :=
  match C.unquote (mapIndex obj Tag) with
  | none => ⟨some "cannot unquote json tag", v, none⟩
  | some kindTag => decodeVariant C decl kindTag raw v

/-- `decodeAdjacently`. -/
def decodeAdjacently {Value : Type} (C : Codec Value) (obj : List (String × Bytes))
    (v : Option Value) (decl : Declaration) (Tag Content : String) : Decoded Value :=
  match C.unquote (mapIndex obj Tag) with
  | none => ⟨some "cannot unquote json tag", v, none⟩
  | some kindTag => decodeVariant C decl kindTag (mapIndex obj Content) v

/-- The loop of `decodeExternally` over the visited entries: `firstKey` and `data` are the two
local variables (`data` absent while it is nil); an entry met when `data` is set is the error
return. -/
def scanExternally : List (String × Bytes) → String → Option Bytes →
    Except String (String × Option Bytes)
  | [], firstKey, data => .ok (firstKey, data)
  | kv :: rest, _, none => scanExternally rest kv.1 (some kv.2)
  | _ :: _, _, some _ => .error "invalid externally tagged object format: found extra key"

/-- `decodeExternally`. -/
def decodeExternally {Value : Type} (C : Codec Value) (range : RangeOrder)
    (obj : List (String × Bytes)) (v : Option Value) (decl : Declaration) : Decoded Value :=
  match scanExternally (range obj) "" none with
  | .error err => ⟨some err, v, none⟩
  | .ok (firstKey, data) => decodeVariant C decl firstKey (data.getD []) v

/-- `interfaceDecoder`: `input` is the wire payload at the decoder's position, `t` the static
interface type of the target and `v` its content on entry. The saved error of the undeclared
case surfaces as the error of the whole decode. -/
def interfaceDecoder {Value : Type} (C : Codec Value) (range : RangeOrder) (g : declContext)
    (input : Bytes) (t : RType) (v : Option Value) : Decoded Value :=
  match C.object input with
  | .error err => ⟨some err, v, none⟩
  | .ok tmp =>
      match DeclarationOf g t with
      | none => ⟨some "json: cannot unmarshal interface into Go value", v, none⟩
      | some decl =>
          match decl.JSON with
          | some JSON.ExternallyOptions => decodeExternally C range tmp v decl
          | some (JSON.AdjacentlyOptions Tag Content) => decodeAdjacently C tmp v decl Tag Content
          | some JSON.UntaggedOptions => ⟨some "untagged interfaces cannot be unmarshalled", v, none⟩
          | some (JSON.InternallyOptions Tag) =>
              let raw := bufferObjectRoundTrip C range tmp
              decodeInternally C raw tmp v decl Tag
          | none => ⟨some "unknown json tag options", v, none⟩

/-! ## Types of enum_test.go used as concrete inputs -/

namespace Fixture

/-- The interface `Pet` of the examples. -/
def Pet : RType := ⟨0, "Pet"⟩

/-- The struct `Dog` of the examples, `struct { TaxNumber int }`. -/
def Dog : RType := ⟨1, "Dog"⟩

/-- The struct `Cat` of the examples, `struct { Name string }`. -/
def Cat : RType := ⟨2, "Cat"⟩

/-- An empty struct `Stray struct{}` that implements `Pet`. -/
def Stray : RType := ⟨3, "Stray"⟩

/-- The interface `Currency` of the tests. -/
def Currency : RType := ⟨4, "Currency"⟩

/-- The integer type `Dollar` of the tests, a `Currency`. -/
def Dollar : RType := ⟨5, "Dollar"⟩

/-- A slice type `Tags []string` that implements `Pet`. -/
def Tags : RType := ⟨6, "Tags"⟩

/-- `Dog`, `Cat`, `Stray` and `Tags` implement `Pet`; `Dollar` implements `Currency`. -/
def Implements (m e : RType) : Bool :=
  decide ((e = Pet ∧ (m = Dog ∨ m = Cat ∨ m = Stray ∨ m = Tags)) ∨ (e = Currency ∧ m = Dollar))

/-- The table before any registration. -/
def noDecls : declContext := ⟨fun _ => none⟩

/-- A sealed Declaration of `Pet` with the single variant `Dog`. -/
def sealedPet : Declaration :=
  { enumType := Pet, variants := [Dog],
    cfg := { noZero := false, sealed := true,
             fromNameToType := mapSet (fun _ => none) "Dog" Dog,
             fromTypeToName := mapSet (fun _ => none) Dog "Dog",
             jsonOpts := some JSON.ExternallyOptions } }

/-- The table holding only `sealedPet`. -/
def sealedDecls : declContext := ⟨mapSet (fun _ => none) Pet sealedPet⟩

/-- A table holding one Declaration without variants, in the default configuration. -/
def declared (e : RType) : declContext :=
  ⟨mapSet (fun _ => none) e { enumType := e, variants := [], cfg := defaultCfg }⟩

/-- The dynamic values of the example types. -/
inductive Value where
  | Dog (TaxNumber : Nat)
  | Cat (Name : String)
  | Stray
  | Dollar (n : Nat)
  | Tags (items : Option (List String))
deriving DecidableEq, Repr

/-- The dynamic type of a value. -/
def typeOf : Value → RType
  | .Dog _ => Dog
  | .Cat _ => Cat
  | .Stray => Stray
  | .Dollar _ => Dollar
  | .Tags _ => Tags

/-- The double quote character. -/
def dq : Char := Char.ofNat 34

/-- The backslash character. -/
def bs : Char := Char.ofNat 92

/-- Escaping inside a string literal, restricted to quote and backslash. -/
def escape : List Char → Bytes
  | [] => []
  | c :: cs => if c = dq ∨ c = bs then bs :: c :: escape cs else c :: escape cs

/-- Modelled from the spec: quoting of a wire string literal (collaborator contract (e)), for
strings without control or non-ASCII characters, where the escape flag makes no difference. -/
def appendString (s : String) (_escapeHTML : Bool) : Bytes :=
  dq :: escape s.toList ++ [dq]

/-- The body of a string literal after its opening quote, up to the closing quote, which has to
be the last character of the input. -/
def unquoteBody : Bytes → Bool → List Char → Option (List Char)
  | [], _, _ => none
  | c :: rest, esc, acc =>
      if esc then
        if c = dq ∨ c = bs then unquoteBody rest false (acc ++ [c]) else none
      else if c = bs then unquoteBody rest true acc
      else if c = dq then (if rest = [] then some acc else none)
      else unquoteBody rest false (acc ++ [c])

/-- Modelled from the spec: unquoting of a wire string literal (collaborator contract (e)). -/
def unquote (raw : Bytes) : Option String :=
  match raw with
  | [] => none
  | c :: rest => if c = dq then (unquoteBody rest false []).map String.mk else none

/-- The quoted key at the head of the input, returned with the input after it. -/
def scanKey : Bytes → Bool → Bytes → Option (Bytes × Bytes)
  | [], _, _ => none
  | c :: rest, esc, acc =>
      if esc then scanKey rest false (acc ++ [c])
      else if c = bs then scanKey rest true (acc ++ [c])
      else if c = dq then some (acc ++ [c], rest)
      else scanKey rest false (acc ++ [c])

/-- The raw value at the head of the input, up to the comma or closing brace that ends it at
nesting depth zero, returned with the input from that delimiter on. -/
def scanValue : Bytes → Nat → Bool → Bool → Bytes → Option (Bytes × Bytes)
  | [], _, _, _, _ => none
  | c :: cs, depth, inStr, esc, acc =>
      if inStr then
        if esc then scanValue cs depth true false (acc ++ [c])
        else if c = bs then scanValue cs depth true true (acc ++ [c])
        else if c = dq then scanValue cs depth false false (acc ++ [c])
        else scanValue cs depth true false (acc ++ [c])
      else if c = dq then scanValue cs depth true false (acc ++ [c])
      else if c = '{' ∨ c = '[' then scanValue cs (depth + 1) false false (acc ++ [c])
      else if c = '}' ∨ c = ']' then
        match depth with
        | 0 => some (acc, c :: cs)
        | d + 1 => scanValue cs d false false (acc ++ [c])
      else if c = ',' ∧ depth = 0 then some (acc, c :: cs)
      else scanValue cs depth false false (acc ++ [c])

/-- Map assignment on the association list: a key already present keeps its place and takes the
new value. -/
def mapPut : List (String × Bytes) → String → Bytes → List (String × Bytes)
  | [], k, v => [(k, v)]
  | kv :: rest, k, v => if kv.1 = k then (k, v) :: rest else kv :: mapPut rest k v

/-- The members of an object after its opening brace; `fuel` bounds the number of members. -/
def parseMembers : Nat → Bytes → List (String × Bytes) → Option (List (String × Bytes))
  | 0, _, _ => none
  | fuel + 1, input, acc =>
      match input with
      | [] => none
      | c :: afterQuote =>
          if c = dq then
            match scanKey afterQuote false [c] with
            | none => none
            | some (rawKey, rest) =>
                match unquote rawKey, rest with
                | some key, colon :: rest1 =>
                    if colon = ':' then
                      match scanValue rest1 0 false false [] with
                      | none => none
                      | some (val, rest2) =>
                          if val = [] then none
                          else
                            match rest2 with
                            | [] => none
                            | sep :: rest3 =>
                                if sep = ',' then parseMembers fuel rest3 (mapPut acc key val)
                                else if sep = '}' ∧ rest3 = [] then some (mapPut acc key val)
                                else none
                    else none
                | _, _ => none
          else none

/-- Modelled from the spec: parse of a wire object into the mapping from field name to deferred
sub-payload (collaborator contract (c)), for input without white space; a repeated key keeps
the last value, as assignment into a Go map does. -/
def object (input : Bytes) : Except String (List (String × Bytes)) :=
  match input with
  | [] => .error "unexpected end of JSON input"
  | c :: rest =>
      if c = '{' then
        if rest = ['}'] then .ok []
        else
          match parseMembers rest.length rest [] with
          | some fields => .ok fields
          | none => .error "invalid character in object"
      else .error "json: cannot unmarshal into Go value of type map[string]json.RawMessage"

/-- A decimal number literal. -/
def parseNat (data : Bytes) : Option Nat :=
  if data = [] ∨ ¬ data.all Char.isDigit then none
  else some (data.foldl (fun n c => 10 * n + (c.toNat - 48)) 0)

/-- The elements of an array of strings after its opening bracket; `fuel` bounds their
number. -/
def parseElems : Nat → Bytes → List String → Option (List String)
  | 0, _, _ => none
  | fuel + 1, input, acc =>
      match scanValue input 0 false false [] with
      | none => none
      | some (val, rest) =>
          match unquote val, rest with
          | some s, sep :: rest1 =>
              if sep = ',' then parseElems fuel rest1 (acc ++ [s])
              else if sep = ']' ∧ rest1 = [] then some (acc ++ [s])
              else none
          | _, _ => none

/-- Modelled from the spec: generic encoding of a value of the example types (collaborator
contract (a)): a struct as the object of its fields, an empty struct as the empty object, an
integer as its decimal literal, a nil slice as `null` and any other slice as the array of its
elements. -/
def reflectValue (v : Value) (opts : encOpts) : Except String Bytes :=
  match v with
  | .Dog n => .ok ("\x7b\"TaxNumber\":".toList ++ (Nat.repr n).toList ++ ['}'])
  | .Cat name => .ok ("\x7b\"Name\":".toList ++ appendString name opts.escapeHTML ++ ['}'])
  | .Stray => .ok ['{', '}']
  | .Dollar n => .ok (Nat.repr n).toList
  | .Tags none => .ok ['n', 'u', 'l', 'l']
  | .Tags (some items) =>
      .ok (['['] ++ List.intercalate [','] (items.map (fun s => appendString s opts.escapeHTML)) ++
        [']'])

/-- Modelled from the spec: generic decoding of a payload other than `null` into a new value of
a statically known example type (collaborator contract (b)); fields the type does not have are
ignored, fields the input does not have keep their zero value. -/
def decodeInto (t : RType) (data : Bytes) : Except String Value :=
  if t = Cat then
    match object data with
    | .error e => .error e
    | .ok fields =>
        match fields.lookup "Name" with
        | none => .ok (.Cat "")
        | some raw =>
            match unquote raw with
            | some name => .ok (.Cat name)
            | none => .error "json: cannot unmarshal into Go struct field Cat.Name of type string"
  else if t = Dog then
    match object data with
    | .error e => .error e
    | .ok fields =>
        match fields.lookup "TaxNumber" with
        | none => .ok (.Dog 0)
        | some raw =>
            match parseNat raw with
            | some n => .ok (.Dog n)
            | none => .error "json: cannot unmarshal into Go struct field Dog.TaxNumber of type int"
  else if t = Stray then
    match object data with
    | .error e => .error e
    | .ok _ => .ok .Stray
  else if t = Dollar then
    match parseNat data with
    | some n => .ok (.Dollar n)
    | none => .error "json: cannot unmarshal into Go value of type Dollar"
  else if t = Tags then
    match data with
    | [] => .error "unexpected end of JSON input"
    | c :: rest =>
        if c = '[' then
          if rest = [']'] then .ok (.Tags (some []))
          else
            match parseElems rest.length rest [] with
            | some items => .ok (.Tags (some items))
            | none => .error "json: cannot unmarshal into Go value of type Tags"
        else .error "json: cannot unmarshal into Go value of type Tags"
  else .error "json: unsupported type"

/-- Modelled from the spec: `Unmarshal(data, &targetVar)` where `targetVar` is an interface
holding a pointer to a new value of the example type `t`, none of which is a pointer type: for
the payload `null` the decoder sets the interface `targetVar` itself to nil and returns nil;
any other payload is decoded into the value pointed to. -/
def Unmarshal (t : RType) (data : Bytes) : Except String (Option Value) :=
  if data = ['n', 'u', 'l', 'l'] then .ok none
  else
    match decodeInto t data with
    | .error e => .error e
    | .ok x => .ok (some x)

/-- The generic codec of the example types. Entering the generic encoder with the interface
value itself selects `interfaceEncoder` again for the same value, without end. -/
def codec : Codec Value :=
  { typeOf := typeOf, appendString := appendString, unquote := unquote,
    reflectValue := reflectValue,
    reflectInterface := fun _ _ => .error "fatal error: stack overflow",
    Unmarshal := Unmarshal, object := object }

/-- A Declaration of `e` whose variants are registered under their type names, with tagging
strategy `json`. -/
def declOf (e : RType) (variants : List RType) (json : JSON) : Declaration :=
  { enumType := e, variants := variants,
    cfg := { noZero := false, sealed := false,
             fromNameToType := fun n => variants.find? (fun t => decide (t.Name = n)),
             fromTypeToName := fun t => if t ∈ variants then some t.Name else none,
             jsonOpts := some json } }

/-- The table holding only `declOf e variants json`. -/
def table (e : RType) (variants : List RType) (json : JSON) : declContext :=
  ⟨mapSet (fun _ => none) e (declOf e variants json)⟩

/-- Encoder options of a plain `Marshal` call. -/
def plain : encOpts := { quoted := false, escapeHTML := true }

end Fixture

end Enum

namespace Enum

/-! ## Registration: lemmas -/

theorem applyAll_append_nil (pre post : List (Option optFunc)) (c : enumCfg) :
    ∃ msg, applyAll (pre ++ none :: post) c = .error msg := by
  induction pre generalizing c with
  | nil => exact ⟨_, rfl⟩
  | cons o pre ih =>
      cases o with
      | none => exact ⟨_, rfl⟩
      | some f => simpa [applyAll, applyOption] using ih (f.apply c)

theorem Variant_of_some (I : RType → RType → Bool) (g : declContext) (e m : RType)
    (opts : List (Option optFunc)) (d : Declaration) (hd : DeclarationOf g e = some d) :
    Variant I g e m opts =
      match addVariant (I m e) d m opts with
      | .error x => .error x
      | .ok d1 => .ok { decls := mapSet g.decls e d1 } := by
  simp [Variant, hd]

/-- C10: a registration that carries `Untagged()` anywhere among its options never completes: the
option is the nil interface value, and the call ends in a panic instead of selecting the Untagged
strategy. -/
theorem Variant_Untagged_panics (I : RType → RType → Bool) (g : declContext) (e m : RType)
    (pre post : List (Option optFunc)) :
    ∃ msg, Variant I g e m (pre ++ Untagged :: post) = .error msg := by
  cases hd : DeclarationOf g e with
  | some d =>
      rw [Variant_of_some I g e m _ d hd]
      unfold addVariant
      cases I m e with
      | false => exact ⟨_, rfl⟩
      | true =>
          obtain ⟨msg, hmsg⟩ := applyAll_append_nil pre post
            { d.cfg with fromTypeToName := mapSet d.cfg.fromTypeToName m m.Name }
          refine ⟨msg, ?_⟩
          simp [Untagged, hmsg]
  | none =>
      obtain ⟨msg, hmsg⟩ := applyAll_append_nil pre post defaultCfg
      refine ⟨msg, ?_⟩
      simp [Variant, hd, Declare, Untagged, hmsg]

/-- C9: on a sealed Declaration of `Pet` with variants `[Dog]`, `Variant[Pet, Cat]()` does not
panic: it returns normally and the variant list becomes `[Dog, Cat]`, the sealed flag still set. -/
theorem Variant_on_sealed_adds :
    Fixture.sealedPet.Sealed = true ∧
    ∃ g1 d1, Variant Fixture.Implements Fixture.sealedDecls Fixture.Pet Fixture.Cat [] = .ok g1 ∧
      DeclarationOf g1 Fixture.Pet = some d1 ∧
      d1.variants = [Fixture.Dog, Fixture.Cat] ∧ d1.Sealed = true :=
  ⟨rfl, _, _, rfl, rfl, by decide, rfl⟩

theorem DeclarationOf_mapSet (f : RType → Option Declaration) (e : RType) (d : Declaration) :
    DeclarationOf { decls := mapSet f e d } e = some d := by
  simp [DeclarationOf, mapSet]

theorem Variant_of_none (I : RType → RType → Bool) (g : declContext) (e m : RType)
    (opts : List (Option optFunc)) (c : enumCfg) (hd : DeclarationOf g e = none)
    (hc : applyAll opts defaultCfg = .ok c) :
    Variant I g e m opts =
      match addVariant (I m e) { enumType := e, variants := [], cfg := c } m opts with
      | .error x => .error x
      | .ok d1 =>
          .ok { decls := mapSet (mapSet g.decls e { enumType := e, variants := [], cfg := c }) e d1 } := by
  simp [Variant, hd, Declare, hc, DeclarationOf_mapSet]

theorem addVariant_rename (d : Declaration) (V : RType) (n : String) :
    ∃ d1, addVariant true d V [Rename V n] = .ok d1 ∧
      d1.cfg.fromNameToType = mapSet d.cfg.fromNameToType n V ∧ d1.Name V = some n :=
  ⟨_, rfl, by simp [optFunc.apply, mapSet], by simp [Declaration.Name, optFunc.apply, mapSet]⟩

/-- One `Variant[T, V](Rename[V](n))` call: it succeeds, `V` is named `n`, and the name-to-type
map is the earlier one with the single entry `n ↦ V` written over it. -/
theorem Variant_rename_spec (I : RType → RType → Bool) (g : declContext) (T V : RType)
    (n : String) (hi : I V T = true) :
    ∃ g1 d1 old, Variant I g T V [Rename V n] = .ok g1 ∧ DeclarationOf g1 T = some d1 ∧
      d1.cfg.fromNameToType = mapSet old n V ∧ d1.Name V = some n ∧
      ∀ d, DeclarationOf g T = some d → old = d.cfg.fromNameToType := by
  cases hd : DeclarationOf g T with
  | some d =>
      obtain ⟨d1, h1, hm, hn⟩ := addVariant_rename d V n
      refine ⟨⟨mapSet g.decls T d1⟩, d1, d.cfg.fromNameToType, ?_, DeclarationOf_mapSet _ _ _,
        hm, hn, ?_⟩
      · rw [Variant_of_some I g T V _ d hd, hi, h1]
      · intro d2 h2
        cases h2
        rfl
  | none =>
      obtain ⟨d1, h1, hm, hn⟩ := addVariant_rename
        { enumType := T, variants := [], cfg := (optFunc.Rename V n).apply defaultCfg } V n
      refine ⟨⟨mapSet (mapSet g.decls T
        { enumType := T, variants := [], cfg := (optFunc.Rename V n).apply defaultCfg }) T d1⟩,
        d1, fun _ => none, ?_, DeclarationOf_mapSet _ _ _, hm, hn, ?_⟩
      · rw [Variant_of_none I g T V [Rename V n] ((optFunc.Rename V n).apply defaultCfg) hd rfl,
          hi, h1]
      · intro d2 h2
        cases h2

/-- C4 (amended): after `Variant[T, V](Rename[V](a))` followed by `Variant[T, V](Rename[V](b))`
both calls have succeeded, name `b` resolves to `V`, `V` is named `b`, and the earlier name `a`
still resolves to `V`: the old entry is kept, not removed. -/
theorem Variant_rename_twice (I : RType → RType → Bool) (g : declContext) (T V : RType)
    (a b : String) (hi : I V T = true) :
    ∃ g1 g2 d, Variant I g T V [Rename V a] = .ok g1 ∧
      Variant I g1 T V [Rename V b] = .ok g2 ∧ DeclarationOf g2 T = some d ∧
      d.Type b = some V ∧ d.Name V = some b ∧ d.Type a = some V := by
  obtain ⟨g1, d1, old1, h1, hd1, hm1, _, _⟩ := Variant_rename_spec I g T V a hi
  obtain ⟨g2, d2, old2, h2, hd2, hm2, hn2, hold2⟩ := Variant_rename_spec I g1 T V b hi
  refine ⟨g1, g2, d2, h1, h2, hd2, ?_, hn2, ?_⟩
  · simp [Declaration.Type, hm2, mapSet]
  · have h := hold2 d1 hd1
    simp only [Declaration.Type, hm2, h, hm1, mapSet]
    by_cases hab : a = b <;> simp [hab]

/-- Witness of `Variant_rename_twice` on the `Pet` example: `Cat` registered as "a", then as "b". -/
theorem Variant_rename_twice_witness :
    Fixture.Implements Fixture.Cat Fixture.Pet = true ∧
    ∃ g1 g2 d, Variant Fixture.Implements Fixture.noDecls Fixture.Pet Fixture.Cat
        [Rename Fixture.Cat "a"] = .ok g1 ∧
      Variant Fixture.Implements g1 Fixture.Pet Fixture.Cat [Rename Fixture.Cat "b"] = .ok g2 ∧
      DeclarationOf g2 Fixture.Pet = some d ∧
      d.Type "b" = some Fixture.Cat ∧ d.Name Fixture.Cat = some "b" ∧
      d.Type "a" = some Fixture.Cat :=
  ⟨by decide, Variant_rename_twice Fixture.Implements Fixture.noDecls Fixture.Pet Fixture.Cat
    "a" "b" (by decide)⟩

/-- C4 (counterexample): on the `Pet` example, after `Variant[Pet, Cat](Rename[Cat]("a"))` and
then `Variant[Pet, Cat](Rename[Cat]("b"))` the lookup of "a" is not absent. -/
theorem rename_twice_old_name_not_absent :
    ∃ g1 g2 d, Variant Fixture.Implements Fixture.noDecls Fixture.Pet Fixture.Cat
        [Rename Fixture.Cat "a"] = .ok g1 ∧
      Variant Fixture.Implements g1 Fixture.Pet Fixture.Cat [Rename Fixture.Cat "b"] = .ok g2 ∧
      DeclarationOf g2 Fixture.Pet = some d ∧
      ¬ (d.Type "a" = none ∧ d.Type "b" = some Fixture.Cat) := by
  refine ⟨_, _, _, rfl, rfl, rfl, ?_⟩
  intro h
  have h1 := h.1
  revert h1
  decide

/-! ## Encoding: lemmas -/

theorem intercalate_concat {α : Type} (sep : List α) (l : List (List α)) (x : List α)
    (hl : l ≠ []) : List.intercalate sep (l ++ [x]) = List.intercalate sep l ++ sep ++ x := by
  induction l with
  | nil => exact absurd rfl hl
  | cons a rest ih =>
      cases rest with
      | nil => simp [List.intercalate]
      | cons b rest2 =>
          have h := ih (by simp)
          simp only [List.intercalate, List.cons_append, List.intersperse_cons_cons,
            List.flatten_cons, List.append_assoc] at h ⊢
          rw [h]

/-- Dropping the closing brace of a non-empty rendered object and appending `,key:value}`
renders the object with that member added last. -/
theorem renderObject_concat (fields : List (Bytes × Bytes)) (hne : fields ≠ []) (e k x : Bytes) :
    truncateLast (e ++ renderObject fields) = .ok (e ++ (renderObject fields).dropLast) ∧
    (renderObject fields).dropLast ++ [','] ++ k ++ [':'] ++ x ++ ['}'] =
      renderObject (fields ++ [(k, x)]) := by
  constructor
  · have hlen : (e ++ renderObject fields).length ≠ 0 := by simp [renderObject]
    simp only [truncateLast, hlen, if_false]
    rw [← List.dropLast_eq_take]
    simp [renderObject, List.dropLast_append_of_ne_nil, ← List.append_assoc, List.dropLast_concat]
  · have hm : fields.map (fun f => f.1 ++ [':'] ++ f.2) ≠ [] := by simpa using hne
    simp only [renderObject, List.map_append, List.map_cons, List.map_nil]
    rw [intercalate_concat _ _ _ hm, ← List.append_assoc, List.dropLast_concat]
    simp [List.append_assoc]

theorem interfaceEncoder_of_some {Value : Type} (C : Codec Value) (g : declContext) (e : Bytes)
    (t : RType) (x : Value) (opts : encOpts) (decl : Declaration)
    (hdecl : DeclarationOf g t = some decl) :
    interfaceEncoder C g e ⟨t, some x⟩ opts =
      match decl.JSON with
      | some JSON.ExternallyOptions => encodeExternally C e ⟨t, some x⟩ opts decl
      | some (JSON.AdjacentlyOptions Tag Content) =>
          encodeAdjacently C e ⟨t, some x⟩ opts decl Tag Content
      | some (JSON.InternallyOptions Tag) => encodeInternally C e ⟨t, some x⟩ opts decl Tag
      | some JSON.UntaggedOptions =>
          match C.reflectInterface ⟨t, some x⟩ opts with
          | .error err => .error err
          | .ok bs => .ok (e ++ bs)
      | none => .error "json: unsupported JSON option type" := by
  simp [interfaceEncoder, hdecl, Iface.IsNil]

/-- Under Externally a registered variant is written as the one-member object of its name. -/
theorem encodeExternally_eq {Value : Type} (C : Codec Value) (t : RType) (x : Value)
    (opts : encOpts) (decl : Declaration) (name : String) (bs : Bytes)
    (hname : decl.Name (C.typeOf x) = some name) (henc : C.reflectValue x opts = .ok bs) :
    encodeExternally C [] ⟨t, some x⟩ opts decl =
      .ok (renderObject [(C.appendString name opts.quoted, bs)]) := by
  simp [encodeExternally, hname, henc, renderObject, List.intercalate]

/-- Under Adjacently a registered variant is written as the two-member object of tag and
content. -/
theorem encodeAdjacently_eq {Value : Type} (C : Codec Value) (t : RType) (x : Value)
    (opts : encOpts) (decl : Declaration) (Tag Content name : String) (bs : Bytes)
    (hname : decl.Name (C.typeOf x) = some name) (henc : C.reflectValue x opts = .ok bs) :
    encodeAdjacently C [] ⟨t, some x⟩ opts decl Tag Content =
      .ok (renderObject [(C.appendString Tag opts.quoted, C.appendString name opts.quoted),
        (C.appendString Content opts.quoted, bs)]) := by
  simp [encodeAdjacently, hname, henc, renderObject, List.intercalate]

/-- Under Internally a registered variant whose generic encoding is a non-empty object is
written as that object with the member `tag: name` added last. -/
theorem encodeInternally_eq {Value : Type} (C : Codec Value) (t : RType) (x : Value)
    (opts : encOpts) (decl : Declaration) (Tag name : String) (raws : List (Bytes × Bytes))
    (hname : decl.Name (C.typeOf x) = some name)
    (henc : C.reflectValue x opts = .ok (renderObject raws)) (hne : raws ≠ []) :
    encodeInternally C [] ⟨t, some x⟩ opts decl Tag =
      .ok (renderObject (raws ++
        [(C.appendString Tag opts.quoted, C.appendString name opts.quoted)])) := by
  obtain ⟨h1, h2⟩ := renderObject_concat raws hne [] (C.appendString Tag opts.quoted)
    (C.appendString name opts.quoted)
  simp only [encodeInternally, Iface.Kind, nonObjectKind, henc, h1, hname]
  simp only [List.nil_append, Bool.false_eq_true, if_false] at h2 ⊢
  rw [← h2]

theorem mapIndex_head (k : String) (x : Bytes) (rest : List (String × Bytes)) :
    mapIndex ((k, x) :: rest) k = x := by
  simp [mapIndex, List.lookup]

theorem mapIndex_concat (fields : List (String × Bytes)) (k : String) (x : Bytes)
    (hk : k ∉ fields.map Prod.fst) : mapIndex (fields ++ [(k, x)]) k = x := by
  induction fields with
  | nil => simp [mapIndex, List.lookup]
  | cons f rest ih =>
      have hne : ¬ k = f.1 := fun h => hk (by simp [h])
      have hrest : k ∉ rest.map Prod.fst := fun h => hk (by simp [h])
      have ih1 := ih hrest
      obtain ⟨a, b⟩ := f
      simp only [mapIndex, List.cons_append, List.lookup] at ih1 ⊢
      have hb : (k == a) = false := by simpa using hne
      rw [hb]
      exact ih1

/-! ## Round trips -/

/-- C1 (amended): under the Externally strategy, for a value `x` whose dynamic type is
registered under a name that resolves back to that type, encoding succeeds and decoding the
bytes produced yields `x`, without error or panic, given that the generic codec parses the
one-member object back into its member and that decoding the generic encoding of `x` into a
new value of its type leaves a value equal to `x` (which it does not for an encoding `null`,
where the location decoded into ends up nil). -/
theorem externally_roundtrip {Value : Type} (C : Codec Value) (range : RangeOrder)
    (g : declContext) (t : RType) (decl : Declaration) (x : Value) (name : String) (bs : Bytes)
    (opts : encOpts) (target : Option Value)
    (hdecl : DeclarationOf g t = some decl)
    (hjson : decl.JSON = some JSON.ExternallyOptions)
    (hname : decl.Name (C.typeOf x) = some name)
    (htype : decl.Type name = some (C.typeOf x))
    (henc : C.reflectValue x opts = .ok bs)
    (hobj : C.object (renderObject [(C.appendString name opts.quoted, bs)]) = .ok [(name, bs)])
    (hrange : ∀ l, (range l).Perm l)
    (hdec : C.Unmarshal (C.typeOf x) bs = .ok (some x)) :
    ∃ out, interfaceEncoder C g [] ⟨t, some x⟩ opts = .ok out ∧
      interfaceDecoder C range g out t target = ⟨none, some x, none⟩ := by
  refine ⟨renderObject [(C.appendString name opts.quoted, bs)], ?_, ?_⟩
  · rw [interfaceEncoder_of_some C g [] t x opts decl hdecl, hjson]
    exact encodeExternally_eq C t x opts decl name bs hname henc
  · have hr : range [(name, bs)] = [(name, bs)] := List.perm_singleton.mp (hrange _)
    simp [interfaceDecoder, hobj, hdecl, hjson, decodeExternally, hr, scanExternally,
      decodeVariant, htype, hdec]

/-- Witness of `externally_roundtrip`: `Cat{Name: "Simba"}` in a `Pet` declared with `Dog` and
`Cat`. -/
theorem externally_roundtrip_witness :
    ∃ out, interfaceEncoder Fixture.codec
        (Fixture.table Fixture.Pet [Fixture.Dog, Fixture.Cat] JSON.ExternallyOptions) []
        ⟨Fixture.Pet, some (Fixture.Value.Cat "Simba")⟩ Fixture.plain = .ok out ∧
      interfaceDecoder Fixture.codec id
        (Fixture.table Fixture.Pet [Fixture.Dog, Fixture.Cat] JSON.ExternallyOptions) out
        Fixture.Pet none = ⟨none, some (Fixture.Value.Cat "Simba"), none⟩ :=
  externally_roundtrip Fixture.codec id
    (Fixture.table Fixture.Pet [Fixture.Dog, Fixture.Cat] JSON.ExternallyOptions) Fixture.Pet
    (Fixture.declOf Fixture.Pet [Fixture.Dog, Fixture.Cat] JSON.ExternallyOptions)
    (Fixture.Value.Cat "Simba") "Cat" "\x7b\"Name\":\"Simba\"\x7d".toList Fixture.plain none
    rfl rfl rfl rfl rfl rfl (fun l => List.Perm.refl l) rfl

/-- C1 (counterexample): under Externally the round trip fails at two inputs. With `Dog` and
`Cat` both registered under the name "animal", the encoding of `Dog{TaxNumber: 7}` decodes
without error into a `Cat`. And the nil slice `Tags(nil)`, which the generic codec encodes as
`null`, is written as `{"Tags":null}`, whose decoding panics and yields no value. -/
theorem externally_roundtrip_fails :
    (∃ g out, VariantAll Fixture.Implements (Fixture.declared Fixture.Pet) Fixture.Pet
        [(Fixture.Dog, [Rename Fixture.Dog "animal"]),
         (Fixture.Cat, [Rename Fixture.Cat "animal"])] = .ok g ∧
      interfaceEncoder Fixture.codec g [] ⟨Fixture.Pet, some (Fixture.Value.Dog 7)⟩
        Fixture.plain = .ok out ∧
      interfaceDecoder Fixture.codec id g out Fixture.Pet none =
        ⟨none, some (Fixture.Value.Cat ""), none⟩ ∧
      ¬ ((interfaceDecoder Fixture.codec id g out Fixture.Pet none).v =
        some (Fixture.Value.Dog 7))) ∧
    (∃ g out, VariantAll Fixture.Implements (Fixture.declared Fixture.Pet) Fixture.Pet
        [(Fixture.Tags, [])] = .ok g ∧
      interfaceEncoder Fixture.codec g [] ⟨Fixture.Pet, some (Fixture.Value.Tags none)⟩
        Fixture.plain = .ok out ∧
      out = "\x7b\"Tags\":null\x7d".toList ∧
      interfaceDecoder Fixture.codec id g out Fixture.Pet none =
        ⟨none, none, some "reflect: call of reflect.Value.Elem on zero Value"⟩ ∧
      ¬ ((interfaceDecoder Fixture.codec id g out Fixture.Pet none).v =
        some (Fixture.Value.Tags none))) :=
  ⟨⟨_, _, rfl, rfl, rfl, by decide⟩, ⟨_, _, rfl, rfl, rfl, rfl, by decide⟩⟩

/-- C2 (amended): under the Adjacently(tag, content) strategy with tag and content field names
that differ, for a value `x` whose dynamic type is registered under a name that resolves back
to that type, encoding succeeds and decoding the bytes produced yields `x`, without error or
panic, given that the generic codec unquotes the quoted name, parses the two-member object
back into its members, and that decoding the generic encoding of `x` into a new value of its
type leaves a value equal to `x` (which it does not for an encoding `null`, where the location
decoded into ends up nil). -/
theorem adjacently_roundtrip {Value : Type} (C : Codec Value) (range : RangeOrder)
    (g : declContext) (t : RType) (decl : Declaration) (x : Value) (Tag Content name : String)
    (bs : Bytes) (opts : encOpts) (target : Option Value)
    (hdecl : DeclarationOf g t = some decl)
    (hjson : decl.JSON = some (JSON.AdjacentlyOptions Tag Content))
    (htc : Tag ≠ Content)
    (hname : decl.Name (C.typeOf x) = some name)
    (htype : decl.Type name = some (C.typeOf x))
    (henc : C.reflectValue x opts = .ok bs)
    (hobj : C.object (renderObject
        [(C.appendString Tag opts.quoted, C.appendString name opts.quoted),
         (C.appendString Content opts.quoted, bs)]) =
      .ok [(Tag, C.appendString name opts.quoted), (Content, bs)])
    (hunq : C.unquote (C.appendString name opts.quoted) = some name)
    (hdec : C.Unmarshal (C.typeOf x) bs = .ok (some x)) :
    ∃ out, interfaceEncoder C g [] ⟨t, some x⟩ opts = .ok out ∧
      interfaceDecoder C range g out t target = ⟨none, some x, none⟩ := by
  refine ⟨renderObject [(C.appendString Tag opts.quoted, C.appendString name opts.quoted),
    (C.appendString Content opts.quoted, bs)], ?_, ?_⟩
  · rw [interfaceEncoder_of_some C g [] t x opts decl hdecl, hjson]
    exact encodeAdjacently_eq C t x opts decl Tag Content name bs hname henc
  · have hct : (Content == Tag) = false := by
      simpa using fun h : Content = Tag => htc h.symm
    simp [interfaceDecoder, hobj, hdecl, hjson, decodeAdjacently, mapIndex, List.lookup, hct,
      hunq, decodeVariant, htype, hdec]

/-- Witness of `adjacently_roundtrip`: `Cat{Name: "Simba"}` with tag "kind" and content "obj". -/
theorem adjacently_roundtrip_witness :
    ∃ out, interfaceEncoder Fixture.codec
        (Fixture.table Fixture.Pet [Fixture.Dog, Fixture.Cat]
          (JSON.AdjacentlyOptions "kind" "obj")) []
        ⟨Fixture.Pet, some (Fixture.Value.Cat "Simba")⟩ Fixture.plain = .ok out ∧
      interfaceDecoder Fixture.codec id
        (Fixture.table Fixture.Pet [Fixture.Dog, Fixture.Cat]
          (JSON.AdjacentlyOptions "kind" "obj")) out
        Fixture.Pet none = ⟨none, some (Fixture.Value.Cat "Simba"), none⟩ :=
  adjacently_roundtrip Fixture.codec id
    (Fixture.table Fixture.Pet [Fixture.Dog, Fixture.Cat] (JSON.AdjacentlyOptions "kind" "obj"))
    Fixture.Pet
    (Fixture.declOf Fixture.Pet [Fixture.Dog, Fixture.Cat] (JSON.AdjacentlyOptions "kind" "obj"))
    (Fixture.Value.Cat "Simba") "kind" "obj" "Cat" "\x7b\"Name\":\"Simba\"\x7d".toList
    Fixture.plain none rfl rfl (by decide) rfl rfl rfl rfl rfl rfl

/-- C2 (counterexample): under Adjacently the round trip fails at three inputs. With
`Adjacently("k", "k")`, tag and content sharing one field name, the encoding of
`Cat{Name: "Simba"}` is written but its decoding fails (the tag cannot be unquoted). With `Dog`
and `Cat` both registered under the name "animal", the encoding of `Dog{TaxNumber: 7}` decodes
without error into a `Cat`. And the nil slice `Tags(nil)`, encoded as `null`, is written as
`{"kind":"Tags","obj":null}`, whose decoding panics and yields no value. -/
theorem adjacently_roundtrip_fails :
    (∃ g out, VariantAll Fixture.Implements (Fixture.declared Fixture.Pet) Fixture.Pet
        [(Fixture.Cat, [Adjacently "k" "k"])] = .ok g ∧
      interfaceEncoder Fixture.codec g [] ⟨Fixture.Pet, some (Fixture.Value.Cat "Simba")⟩
        Fixture.plain = .ok out ∧
      out = "\x7b\"k\":\"Cat\",\"k\":\x7b\"Name\":\"Simba\"\x7d\x7d".toList ∧
      interfaceDecoder Fixture.codec id g out Fixture.Pet none =
        ⟨some "cannot unquote json tag", none, none⟩ ∧
      ¬ ((interfaceDecoder Fixture.codec id g out Fixture.Pet none).v =
        some (Fixture.Value.Cat "Simba"))) ∧
    (∃ g out, VariantAll Fixture.Implements (Fixture.declared Fixture.Pet) Fixture.Pet
        [(Fixture.Dog, [Adjacently "kind" "obj", Rename Fixture.Dog "animal"]),
         (Fixture.Cat, [Rename Fixture.Cat "animal"])] = .ok g ∧
      interfaceEncoder Fixture.codec g [] ⟨Fixture.Pet, some (Fixture.Value.Dog 7)⟩
        Fixture.plain = .ok out ∧
      out = "\x7b\"kind\":\"animal\",\"obj\":\x7b\"TaxNumber\":7\x7d\x7d".toList ∧
      interfaceDecoder Fixture.codec id g out Fixture.Pet none =
        ⟨none, some (Fixture.Value.Cat ""), none⟩ ∧
      ¬ ((interfaceDecoder Fixture.codec id g out Fixture.Pet none).v =
        some (Fixture.Value.Dog 7))) ∧
    (∃ g out, VariantAll Fixture.Implements (Fixture.declared Fixture.Pet) Fixture.Pet
        [(Fixture.Tags, [Adjacently "kind" "obj"])] = .ok g ∧
      interfaceEncoder Fixture.codec g [] ⟨Fixture.Pet, some (Fixture.Value.Tags none)⟩
        Fixture.plain = .ok out ∧
      out = "\x7b\"kind\":\"Tags\",\"obj\":null\x7d".toList ∧
      interfaceDecoder Fixture.codec id g out Fixture.Pet none =
        ⟨none, none, some "reflect: call of reflect.Value.Elem on zero Value"⟩ ∧
      ¬ ((interfaceDecoder Fixture.codec id g out Fixture.Pet none).v =
        some (Fixture.Value.Tags none))) :=
  ⟨⟨_, _, rfl, rfl, rfl, rfl, by decide⟩, ⟨_, _, rfl, rfl, rfl, rfl, by decide⟩,
    ⟨_, _, rfl, rfl, rfl, rfl, by decide⟩⟩

/-- C3 (amended): under the Internally(tag) strategy, for a value `x` whose generic encoding is
an object with at least one member, none of them named like the tag, and whose dynamic type is
registered under a name that resolves back to that type, encoding succeeds and decoding the
bytes produced yields `x`, given that the generic codec parses the written object into the
members of `x` followed by the tag, unquotes the quoted name, and decodes the reserialised
members, tag included, into `x`. -/
theorem internally_roundtrip {Value : Type} (C : Codec Value) (range : RangeOrder)
    (g : declContext) (t : RType) (decl : Declaration) (x : Value) (Tag name : String)
    (raws : List (Bytes × Bytes)) (fields : List (String × Bytes)) (opts : encOpts)
    (target : Option Value)
    (hdecl : DeclarationOf g t = some decl)
    (hjson : decl.JSON = some (JSON.InternallyOptions Tag))
    (hname : decl.Name (C.typeOf x) = some name)
    (htype : decl.Type name = some (C.typeOf x))
    (henc : C.reflectValue x opts = .ok (renderObject raws))
    (hne : raws ≠ [])
    (htag : Tag ∉ fields.map Prod.fst)
    (hobj : C.object (renderObject (raws ++
        [(C.appendString Tag opts.quoted, C.appendString name opts.quoted)])) =
      .ok (fields ++ [(Tag, C.appendString name opts.quoted)]))
    (hunq : C.unquote (C.appendString name opts.quoted) = some name)
    (hdec : C.Unmarshal (C.typeOf x) (bufferObjectRoundTrip C range
        (fields ++ [(Tag, C.appendString name opts.quoted)])) = .ok (some x)) :
    ∃ out, interfaceEncoder C g [] ⟨t, some x⟩ opts = .ok out ∧
      interfaceDecoder C range g out t target = ⟨none, some x, none⟩ := by
  refine ⟨renderObject (raws ++
    [(C.appendString Tag opts.quoted, C.appendString name opts.quoted)]), ?_, ?_⟩
  · rw [interfaceEncoder_of_some C g [] t x opts decl hdecl, hjson]
    exact encodeInternally_eq C t x opts decl Tag name raws hname henc hne
  · simp only [interfaceDecoder, hobj, hdecl, hjson, decodeInternally,
      mapIndex_concat fields Tag _ htag, hunq, decodeVariant, htype, hdec]

/-- Witness of `internally_roundtrip`: `Cat{Name: "Simba"}` with tag "type". -/
theorem internally_roundtrip_witness :
    ∃ out, interfaceEncoder Fixture.codec
        (Fixture.table Fixture.Pet [Fixture.Dog, Fixture.Cat] (JSON.InternallyOptions "type")) []
        ⟨Fixture.Pet, some (Fixture.Value.Cat "Simba")⟩ Fixture.plain = .ok out ∧
      interfaceDecoder Fixture.codec id
        (Fixture.table Fixture.Pet [Fixture.Dog, Fixture.Cat] (JSON.InternallyOptions "type")) out
        Fixture.Pet none = ⟨none, some (Fixture.Value.Cat "Simba"), none⟩ :=
  internally_roundtrip Fixture.codec id
    (Fixture.table Fixture.Pet [Fixture.Dog, Fixture.Cat] (JSON.InternallyOptions "type"))
    Fixture.Pet
    (Fixture.declOf Fixture.Pet [Fixture.Dog, Fixture.Cat] (JSON.InternallyOptions "type"))
    (Fixture.Value.Cat "Simba") "type" "Cat"
    [("\"Name\"".toList, "\"Simba\"".toList)] [("Name", "\"Simba\"".toList)]
    Fixture.plain none rfl rfl rfl rfl rfl (by decide) (by decide) rfl rfl rfl

/-- C3 (counterexample): with `Internally("Name")`, the tag named like the field of `Cat`, the
encoding of `Cat{Name: "Simba"}` decodes without error into `Cat{Name: "Cat"}`. -/
theorem internally_tag_named_like_field_changes_value :
    ∃ g out, VariantAll Fixture.Implements (Fixture.declared Fixture.Pet) Fixture.Pet
        [(Fixture.Cat, [Internally "Name"])] = .ok g ∧
      interfaceEncoder Fixture.codec g [] ⟨Fixture.Pet, some (Fixture.Value.Cat "Simba")⟩
        Fixture.plain = .ok out ∧
      out = "\x7b\"Name\":\"Simba\",\"Name\":\"Cat\"\x7d".toList ∧
      interfaceDecoder Fixture.codec id g out Fixture.Pet none =
        ⟨none, some (Fixture.Value.Cat "Cat"), none⟩ ∧
      ¬ ((interfaceDecoder Fixture.codec id g out Fixture.Pet none).v =
        some (Fixture.Value.Cat "Simba")) :=
  ⟨_, _, rfl, rfl, rfl, rfl, by decide⟩

/-! ## Internally tagged encoding and the undeclared variant -/

/-- C6: under Internally("type") the integer variant `Dollar(42)` is not rejected: the kind
switch reads the kind of the interface-typed value, which is never one of the rejected kinds,
so no error is raised and the encoder returns the bytes `4,"type":"Dollar"}`. -/
theorem encodeInternally_integer_not_rejected :
    (∀ v : Iface Fixture.Value, nonObjectKind v.Kind = false) ∧
    Fixture.reflectValue (Fixture.Value.Dollar 42) Fixture.plain = .ok "42".toList ∧
    interfaceEncoder Fixture.codec
      (Fixture.table Fixture.Currency [Fixture.Dollar] (JSON.InternallyOptions "type")) []
      ⟨Fixture.Currency, some (Fixture.Value.Dollar 42)⟩ Fixture.plain =
        .ok "4,\"type\":\"Dollar\"\x7d".toList :=
  ⟨fun _ => rfl, rfl, rfl⟩

/-- C7: under Internally("type") the empty struct `Stray{}`, whose generic encoding is the
object without fields, is written as `{,"type":"Stray"}`: not the object holding the single
member `"type":"Stray"`, and not an object the parser accepts. -/
theorem encodeInternally_empty_object_malformed :
    Fixture.reflectValue Fixture.Value.Stray Fixture.plain = .ok (renderObject []) ∧
    interfaceEncoder Fixture.codec
      (Fixture.table Fixture.Pet [Fixture.Stray] (JSON.InternallyOptions "type")) []
      ⟨Fixture.Pet, some Fixture.Value.Stray⟩ Fixture.plain =
        .ok "\x7b,\"type\":\"Stray\"\x7d".toList ∧
    "\x7b,\"type\":\"Stray\"\x7d".toList ≠
      renderObject [(Fixture.appendString "type" false, Fixture.appendString "Stray" false)] ∧
    Fixture.object "\x7b,\"type\":\"Stray\"\x7d".toList = .error "invalid character in object" :=
  ⟨rfl, rfl, by decide, rfl⟩

/-- C8 (amended): for a declared sum type whose strategy is not Untagged, encoding a non-empty
value whose dynamic type has no registered name fails with an encode error; the generic
encoding of the value, with no tag wrapper, is the output when the sum type has no Declaration
at all. -/
theorem interfaceEncoder_unnamed_variant {Value : Type} (C : Codec Value) (g : declContext)
    (e : Bytes) (t : RType) (x : Value) (opts : encOpts) :
    (∀ decl, DeclarationOf g t = some decl → decl.JSON ≠ some JSON.UntaggedOptions →
      decl.Name (C.typeOf x) = none →
      ∃ msg, interfaceEncoder C g e ⟨t, some x⟩ opts = .error msg) ∧
    (∀ bs, DeclarationOf g t = none → C.reflectValue x opts = .ok bs →
      interfaceEncoder C g e ⟨t, some x⟩ opts = .ok (e ++ bs)) := by
  constructor
  · intro decl hdecl hjson hname
    rw [interfaceEncoder_of_some C g e t x opts decl hdecl]
    cases hj : decl.JSON with
    | none => exact ⟨_, rfl⟩
    | some j =>
        cases j with
        | ExternallyOptions => simp [encodeExternally, hname]
        | AdjacentlyOptions Tag Content => simp [encodeAdjacently, hname]
        | InternallyOptions Tag =>
            simp only [encodeInternally, Iface.Kind, nonObjectKind, Bool.false_eq_true, if_false,
              hname]
            cases h1 : C.reflectValue x opts with
            | error err => simp
            | ok bs => cases h2 : truncateLast (e ++ bs) <;> simp [h2]
        | UntaggedOptions => exact absurd hj hjson
  · intro bs hdecl henc
    simp [interfaceEncoder, hdecl, henc]

/-- Witness of `interfaceEncoder_unnamed_variant`: `Stray{}` in a `Pet` declared with `Dog` and
`Cat` only, and in a table without any Declaration. -/
theorem interfaceEncoder_unnamed_variant_witness :
    (∃ msg, interfaceEncoder Fixture.codec
      (Fixture.table Fixture.Pet [Fixture.Dog, Fixture.Cat] JSON.ExternallyOptions) []
      ⟨Fixture.Pet, some Fixture.Value.Stray⟩ Fixture.plain = .error msg) ∧
    interfaceEncoder Fixture.codec Fixture.noDecls []
      ⟨Fixture.Pet, some Fixture.Value.Stray⟩ Fixture.plain = .ok ([] ++ "\x7b\x7d".toList) :=
  ⟨(interfaceEncoder_unnamed_variant Fixture.codec
      (Fixture.table Fixture.Pet [Fixture.Dog, Fixture.Cat] JSON.ExternallyOptions) []
      Fixture.Pet Fixture.Value.Stray Fixture.plain).1
      (Fixture.declOf Fixture.Pet [Fixture.Dog, Fixture.Cat] JSON.ExternallyOptions)
      rfl (by decide) rfl,
   (interfaceEncoder_unnamed_variant Fixture.codec Fixture.noDecls []
      Fixture.Pet Fixture.Value.Stray Fixture.plain).2 "\x7b\x7d".toList rfl rfl⟩

/-- C8 (counterexample): in a `Pet` declared with `Dog` and `Cat` under Externally, `Stray` has
no registered name and encoding `Stray{}` is an error, not its generic encoding `{}`. -/
theorem unnamed_variant_is_an_error :
    (Fixture.declOf Fixture.Pet [Fixture.Dog, Fixture.Cat] JSON.ExternallyOptions).Name
      Fixture.Stray = none ∧
    Fixture.reflectValue Fixture.Value.Stray Fixture.plain = .ok "\x7b\x7d".toList ∧
    interfaceEncoder Fixture.codec
      (Fixture.table Fixture.Pet [Fixture.Dog, Fixture.Cat] JSON.ExternallyOptions) []
      ⟨Fixture.Pet, some Fixture.Value.Stray⟩ Fixture.plain =
        .error "json: undeclared external type name for interface variant type" ∧
    ¬ (interfaceEncoder Fixture.codec
      (Fixture.table Fixture.Pet [Fixture.Dog, Fixture.Cat] JSON.ExternallyOptions) []
      ⟨Fixture.Pet, some Fixture.Value.Stray⟩ Fixture.plain = .ok "\x7b\x7d".toList) :=
  ⟨rfl, rfl, rfl, fun h => by cases h⟩

end Enum

namespace Enum

/-! ## The empty value and the shape of the tagged encodings -/

/-- C11: for a declared sum type, encoding the empty (nil) value fails with an encode error,
producing no buffer, when the Declaration has noZero set (as the `NoZero()` option sets it), and
appends exactly `null` when it is unset. -/
theorem interfaceEncoder_nil {Value : Type} (C : Codec Value) (g : declContext) (e : Bytes)
    (t : RType) (opts : encOpts) (decl : Declaration) (hdecl : DeclarationOf g t = some decl) :
    (∀ c, (optFunc.NoZero.apply c).noZero = true) ∧
    (decl.NoZero = true →
      interfaceEncoder C g e ⟨t, none⟩ opts = .error "json: nil is not allowed for interface") ∧
    (decl.NoZero = false →
      interfaceEncoder C g e ⟨t, none⟩ opts = .ok (e ++ ['n', 'u', 'l', 'l'])) := by
  refine ⟨fun _ => rfl, ?_, ?_⟩
  · intro h
    simp [interfaceEncoder, hdecl, Iface.IsNil, h]
  · intro h
    simp [interfaceEncoder, hdecl, Iface.IsNil, h]

/-- Witness of `interfaceEncoder_nil`: the nil `Pet`, once with noZero set by `NoZero()`, once
in the default configuration. -/
theorem interfaceEncoder_nil_witness :
    interfaceEncoder Fixture.codec
      ⟨mapSet (fun _ => none) Fixture.Pet
        { enumType := Fixture.Pet, variants := [], cfg := optFunc.NoZero.apply defaultCfg }⟩ []
      ⟨Fixture.Pet, none⟩ Fixture.plain = .error "json: nil is not allowed for interface" ∧
    interfaceEncoder Fixture.codec (Fixture.declared Fixture.Pet) []
      ⟨Fixture.Pet, none⟩ Fixture.plain = .ok ([] ++ ['n', 'u', 'l', 'l']) :=
  ⟨(interfaceEncoder_nil Fixture.codec
      ⟨mapSet (fun _ => none) Fixture.Pet
        { enumType := Fixture.Pet, variants := [], cfg := optFunc.NoZero.apply defaultCfg }⟩ []
      Fixture.Pet Fixture.plain
      { enumType := Fixture.Pet, variants := [], cfg := optFunc.NoZero.apply defaultCfg }
      rfl).2.1 rfl,
   (interfaceEncoder_nil Fixture.codec (Fixture.declared Fixture.Pet) [] Fixture.Pet
      Fixture.plain { enumType := Fixture.Pet, variants := [], cfg := defaultCfg } rfl).2.2 rfl⟩

/-- C12: under Adjacently(tag, content), a value of a variant registered as `name` is written
as exactly the two-member object `{tag: name, content: <generic encoding>}`, tag first. -/
theorem interfaceEncoder_adjacently {Value : Type} (C : Codec Value) (g : declContext)
    (t : RType) (decl : Declaration) (x : Value) (Tag Content name : String) (bs : Bytes)
    (opts : encOpts)
    (hdecl : DeclarationOf g t = some decl)
    (hjson : decl.JSON = some (JSON.AdjacentlyOptions Tag Content))
    (hname : decl.Name (C.typeOf x) = some name)
    (henc : C.reflectValue x opts = .ok bs) :
    interfaceEncoder C g [] ⟨t, some x⟩ opts =
      .ok (['{'] ++ C.appendString Tag opts.quoted ++ [':'] ++ C.appendString name opts.quoted ++
        [','] ++ C.appendString Content opts.quoted ++ [':'] ++ bs ++ ['}']) ∧
    interfaceEncoder C g [] ⟨t, some x⟩ opts =
      .ok (renderObject [(C.appendString Tag opts.quoted, C.appendString name opts.quoted),
        (C.appendString Content opts.quoted, bs)]) := by
  rw [interfaceEncoder_of_some C g [] t x opts decl hdecl, hjson]
  refine ⟨?_, encodeAdjacently_eq C t x opts decl Tag Content name bs hname henc⟩
  simp [encodeAdjacently, hname, henc]

/-- Witness of `interfaceEncoder_adjacently`: `Cat{Name: "Simba"}` with tag "kind" and content
"obj" is written as `{"kind":"Cat","obj":{"Name":"Simba"}}`. -/
theorem interfaceEncoder_adjacently_witness :
    interfaceEncoder Fixture.codec
      (Fixture.table Fixture.Pet [Fixture.Dog, Fixture.Cat] (JSON.AdjacentlyOptions "kind" "obj"))
      [] ⟨Fixture.Pet, some (Fixture.Value.Cat "Simba")⟩ Fixture.plain =
      .ok ("\x7b\"kind\":\"Cat\",\"obj\":".toList ++ "\x7b\"Name\":\"Simba\"\x7d\x7d".toList) :=
  (interfaceEncoder_adjacently Fixture.codec
    (Fixture.table Fixture.Pet [Fixture.Dog, Fixture.Cat] (JSON.AdjacentlyOptions "kind" "obj"))
    Fixture.Pet
    (Fixture.declOf Fixture.Pet [Fixture.Dog, Fixture.Cat] (JSON.AdjacentlyOptions "kind" "obj"))
    (Fixture.Value.Cat "Simba") "kind" "obj" "Cat" "\x7b\"Name\":\"Simba\"\x7d".toList
    Fixture.plain rfl rfl rfl rfl).1

/-- C13: under Externally, a value of a variant registered as `name` is written as exactly the
one-member object `{name: <generic encoding>}`: opening brace, quoted name, colon, the inner
encoding, closing brace. -/
theorem interfaceEncoder_externally {Value : Type} (C : Codec Value) (g : declContext)
    (t : RType) (decl : Declaration) (x : Value) (name : String) (bs : Bytes) (opts : encOpts)
    (hdecl : DeclarationOf g t = some decl)
    (hjson : decl.JSON = some JSON.ExternallyOptions)
    (hname : decl.Name (C.typeOf x) = some name)
    (henc : C.reflectValue x opts = .ok bs) :
    interfaceEncoder C g [] ⟨t, some x⟩ opts =
      .ok (['{'] ++ C.appendString name opts.quoted ++ [':'] ++ bs ++ ['}']) ∧
    interfaceEncoder C g [] ⟨t, some x⟩ opts =
      .ok (renderObject [(C.appendString name opts.quoted, bs)]) := by
  rw [interfaceEncoder_of_some C g [] t x opts decl hdecl, hjson]
  refine ⟨?_, encodeExternally_eq C t x opts decl name bs hname henc⟩
  simp [encodeExternally, hname, henc]

/-- Witness of `interfaceEncoder_externally`: `Cat{Name: "Simba"}` is written as
`{"Cat":{"Name":"Simba"}}`. -/
theorem interfaceEncoder_externally_witness :
    interfaceEncoder Fixture.codec
      (Fixture.table Fixture.Pet [Fixture.Dog, Fixture.Cat] JSON.ExternallyOptions)
      [] ⟨Fixture.Pet, some (Fixture.Value.Cat "Simba")⟩ Fixture.plain =
      .ok "\x7b\"Cat\":\x7b\"Name\":\"Simba\"\x7d\x7d".toList :=
  (interfaceEncoder_externally Fixture.codec
    (Fixture.table Fixture.Pet [Fixture.Dog, Fixture.Cat] JSON.ExternallyOptions)
    Fixture.Pet
    (Fixture.declOf Fixture.Pet [Fixture.Dog, Fixture.Cat] JSON.ExternallyOptions)
    (Fixture.Value.Cat "Simba") "Cat" "\x7b\"Name\":\"Simba\"\x7d".toList
    Fixture.plain rfl rfl rfl rfl).1

end Enum

namespace Enum

/-! ## Decoding: errors -/

theorem scanExternally_two (a b : String × Bytes) (rest : List (String × Bytes))
    (firstKey : String) :
    scanExternally (a :: b :: rest) firstKey none =
      .error "invalid externally tagged object format: found extra key" := by
  simp [scanExternally]

theorem decodeVariant_err_keeps {Value : Type} (C : Codec Value) (decl : Declaration)
    (kindTag : String) (data : Bytes) (v : Option Value)
    (h : (decodeVariant C decl kindTag data v).err ≠ none) :
    (decodeVariant C decl kindTag data v).v = v := by
  unfold decodeVariant at h ⊢
  cases hT : decl.Type kindTag with
  | none => simp
  | some variantT =>
      cases hU : C.Unmarshal variantT data with
      | error err => simp [hU]
      | ok r =>
          cases r with
          | none => simp [hU]
          | some targetVar => simp [hT, hU] at h

/-- C14: under Externally, whatever order the map is visited in, an object whose field mapping
has more than one entry fails to decode with the extra-key error, and a decode that succeeds
had a mapping of exactly one entry (the generic decoder rejecting the empty input that stands
for the missing payload of an empty mapping). -/
theorem decodeExternally_extra_key {Value : Type} (C : Codec Value) (range : RangeOrder)
    (g : declContext) (input : Bytes) (t : RType) (v : Option Value) (decl : Declaration)
    (obj : List (String × Bytes))
    (hrange : ∀ l, (range l).Perm l)
    (hobj : C.object input = .ok obj)
    (hdecl : DeclarationOf g t = some decl)
    (hjson : decl.JSON = some JSON.ExternallyOptions)
    (hempty : ∀ t1, ∃ msg, C.Unmarshal t1 [] = .error msg) :
    (2 ≤ obj.length →
      interfaceDecoder C range g input t v =
        ⟨some "invalid externally tagged object format: found extra key", v, none⟩) ∧
    ((interfaceDecoder C range g input t v).err = none → obj.length = 1) := by
  have hlen : (range obj).length = obj.length := (hrange obj).length_eq
  have hdecode : interfaceDecoder C range g input t v = decodeExternally C range obj v decl := by
    simp [interfaceDecoder, hobj, hdecl, hjson]
  rw [hdecode]
  cases hr : range obj with
  | nil =>
      rw [hr] at hlen
      constructor
      · intro h; simp at hlen; omega
      · intro h
        exfalso
        revert h
        simp only [decodeExternally, hr, scanExternally, decodeVariant, Option.getD_none]
        cases decl.Type "" with
        | none => simp
        | some variantT =>
            obtain ⟨msg, hmsg⟩ := hempty variantT
            simp [hmsg]
  | cons a rest =>
      cases rest with
      | nil =>
          rw [hr] at hlen
          simp at hlen
          exact ⟨fun h => by omega, fun _ => hlen.symm⟩
      | cons b rest2 =>
          constructor
          · intro _
            simp [decodeExternally, hr, scanExternally_two]
          · intro h
            simp [decodeExternally, hr, scanExternally_two] at h

theorem Fixture.decodeInto_empty (t1 : RType) :
    ∃ msg, Fixture.decodeInto t1 [] = .error msg := by
  by_cases h1 : t1 = Fixture.Cat
  · subst h1; exact ⟨_, rfl⟩
  · by_cases h2 : t1 = Fixture.Dog
    · subst h2; exact ⟨_, rfl⟩
    · by_cases h3 : t1 = Fixture.Stray
      · subst h3; exact ⟨_, rfl⟩
      · by_cases h4 : t1 = Fixture.Dollar
        · subst h4; exact ⟨_, rfl⟩
        · by_cases h5 : t1 = Fixture.Tags
          · subst h5; exact ⟨_, rfl⟩
          · exact ⟨_, by simp [Fixture.decodeInto, h1, h2, h3, h4, h5]; rfl⟩

theorem Fixture.Unmarshal_empty (t1 : RType) : ∃ msg, Fixture.Unmarshal t1 [] = .error msg := by
  obtain ⟨msg, h⟩ := Fixture.decodeInto_empty t1
  exact ⟨msg, by simp [Fixture.Unmarshal, h]⟩

/-- Witness of `decodeExternally_extra_key`: the object `{"Cat":{"Name":"Simba"},"Dog":1}` with
two top-level keys. -/
theorem decodeExternally_extra_key_witness :
    interfaceDecoder Fixture.codec List.reverse
      (Fixture.table Fixture.Pet [Fixture.Dog, Fixture.Cat] JSON.ExternallyOptions)
      "\x7b\"Cat\":\x7b\"Name\":\"Simba\"\x7d,\"Dog\":1\x7d".toList Fixture.Pet none =
        ⟨some "invalid externally tagged object format: found extra key", none, none⟩ :=
  (decodeExternally_extra_key Fixture.codec List.reverse
    (Fixture.table Fixture.Pet [Fixture.Dog, Fixture.Cat] JSON.ExternallyOptions)
    "\x7b\"Cat\":\x7b\"Name\":\"Simba\"\x7d,\"Dog\":1\x7d".toList Fixture.Pet none
    (Fixture.declOf Fixture.Pet [Fixture.Dog, Fixture.Cat] JSON.ExternallyOptions)
    [("Cat", "\x7b\"Name\":\"Simba\"\x7d".toList), ("Dog", "1".toList)]
    (fun l => List.reverse_perm l) rfl rfl rfl Fixture.Unmarshal_empty).1 (by decide)

/-- C15: a decode that returns an error leaves the caller-supplied location as it was, under
every strategy and for every cause of the error. -/
theorem interfaceDecoder_error_keeps_target {Value : Type} (C : Codec Value)
    (range : RangeOrder) (g : declContext) (input : Bytes) (t : RType) (v : Option Value)
    (herr : (interfaceDecoder C range g input t v).err ≠ none) :
    (interfaceDecoder C range g input t v).v = v := by
  unfold interfaceDecoder at herr ⊢
  cases hobj : C.object input with
  | error err => rfl
  | ok tmp =>
      simp only [hobj] at herr ⊢
      cases hdecl : DeclarationOf g t with
      | none => rfl
      | some decl =>
          simp only [hdecl] at herr ⊢
          cases hj : decl.JSON with
          | none => rfl
          | some j =>
              simp only [hj] at herr ⊢
              cases j with
              | ExternallyOptions =>
                  simp only [decodeExternally] at herr ⊢
                  cases hs : scanExternally (range tmp) "" none with
                  | error err => rfl
                  | ok kd =>
                      simp only [hs] at herr ⊢
                      exact decodeVariant_err_keeps C decl _ _ v herr
              | AdjacentlyOptions Tag Content =>
                  simp only [decodeAdjacently] at herr ⊢
                  cases hu : C.unquote (mapIndex tmp Tag) with
                  | none => rfl
                  | some kindTag =>
                      simp only [hu] at herr ⊢
                      exact decodeVariant_err_keeps C decl _ _ v herr
              | InternallyOptions Tag =>
                  simp only [decodeInternally] at herr ⊢
                  cases hu : C.unquote (mapIndex tmp Tag) with
                  | none => rfl
                  | some kindTag =>
                      simp only [hu] at herr ⊢
                      exact decodeVariant_err_keeps C decl _ _ v herr
              | UntaggedOptions => rfl

/-- Witness of `interfaceDecoder_error_keeps_target`: decoding `{"Bird":1}`, an unknown tag,
into a location holding `Dog{TaxNumber: 7}`. -/
theorem interfaceDecoder_error_keeps_target_witness :
    (interfaceDecoder Fixture.codec id
      (Fixture.table Fixture.Pet [Fixture.Dog, Fixture.Cat] JSON.ExternallyOptions)
      "\x7b\"Bird\":1\x7d".toList Fixture.Pet (some (Fixture.Value.Dog 7))).err ≠ none ∧
    (interfaceDecoder Fixture.codec id
      (Fixture.table Fixture.Pet [Fixture.Dog, Fixture.Cat] JSON.ExternallyOptions)
      "\x7b\"Bird\":1\x7d".toList Fixture.Pet (some (Fixture.Value.Dog 7))).v =
        some (Fixture.Value.Dog 7) :=
  ⟨by decide, interfaceDecoder_error_keeps_target Fixture.codec id
    (Fixture.table Fixture.Pet [Fixture.Dog, Fixture.Cat] JSON.ExternallyOptions)
    "\x7b\"Bird\":1\x7d".toList Fixture.Pet (some (Fixture.Value.Dog 7)) (by decide)⟩

end Enum

namespace Enum

/-! ## Reserialising the deferred field mapping -/

theorem foldl_append_flatten {α β : Type} (f : β → List α) (l : List β) (init : List α) :
    l.foldl (fun buf x => buf ++ f x) init = init ++ (l.map f).flatten := by
  induction l generalizing init with
  | nil => simp
  | cons a rest ih => simp [ih, List.append_assoc]

theorem flatten_map_append_sep {α : Type} (sep : List α) (xs : List (List α)) (hne : xs ≠ []) :
    (xs.map (fun x => x ++ sep)).flatten = List.intercalate sep xs ++ sep := by
  induction xs with
  | nil => exact absurd rfl hne
  | cons a rest ih =>
      cases rest with
      | nil => simp [List.intercalate]
      | cons b rest2 =>
          have h := ih (by simp)
          simp only [List.map_cons, List.flatten_cons, List.intercalate,
            List.intersperse_cons_cons, List.append_assoc] at h ⊢
          rw [h]

/-- The output of `bufferObjectRoundTrip` is the rendering of the visited entries, keys quoted
and values verbatim. -/
theorem bufferObjectRoundTrip_eq {Value : Type} (C : Codec Value) (range : RangeOrder)
    (obj : List (String × Bytes)) (hrange : ∀ l, (range l).Perm l) :
    bufferObjectRoundTrip C range obj =
      renderObject ((range obj).map (fun kv => (C.appendString kv.1 false, kv.2))) := by
  have hlen : (range obj).length = obj.length := (hrange obj).length_eq
  have hfold : (range obj).foldl
      (fun buf km => buf ++ C.appendString km.1 false ++ [':'] ++ km.2 ++ [',']) ['{'] =
      ['{'] ++ (((range obj).map (fun km => C.appendString km.1 false ++ [':'] ++ km.2)).map
        (fun x => x ++ [','])).flatten := by
    have h := foldl_append_flatten
      (fun km : String × Bytes => C.appendString km.1 false ++ [':'] ++ km.2 ++ [','])
      (range obj) ['{']
    simp only [List.append_assoc, List.map_map, Function.comp_def] at h ⊢
    exact h
  unfold bufferObjectRoundTrip
  simp only [hfold]
  cases hr : range obj with
  | nil =>
      have h0 : obj.length = 0 := by rw [← hlen, hr]; rfl
      simp [h0, renderObject, List.intercalate]
  | cons a rest =>
      have hpos : obj.length > 0 := by rw [← hlen, hr]; simp
      have hne : ((a :: rest).map (fun km : String × Bytes =>
          C.appendString km.1 false ++ [':'] ++ km.2)) ≠ [] := by simp
      rw [flatten_map_append_sep [','] _ hne]
      simp only [hpos, if_true, renderObject, List.map_map]
      rw [← List.dropLast_eq_take, ← List.append_assoc, List.dropLast_concat]
      rfl

theorem perm_pair {α : Type} (a b : α) (l : List α) (h : l.Perm [a, b]) :
    l = [a, b] ∨ l = [b, a] := by
  have hlen := h.length_eq
  match l, hlen, h with
  | [x, y], _, h =>
      have hx : x ∈ [a, b] := h.subset (by simp)
      have hy : y ∈ [a, b] := h.subset (by simp)
      have ha : a ∈ [x, y] := h.symm.subset (by simp)
      have hb : b ∈ [x, y] := h.symm.subset (by simp)
      simp only [List.mem_cons, List.mem_singleton, List.not_mem_nil, or_false] at hx hy ha hb
      rcases hx with rfl | rfl <;> rcases hy with rfl | rfl <;> simp_all

/-- C19: whatever order the map is visited in, `bufferObjectRoundTrip(obj)` is the object made
of exactly the entries of `obj` (keys quoted, raw values verbatim, commas between), so that a
parser which reads such an object back into its entries, in any order of writing, parses the
output into a mapping equal to `obj`; the empty mapping yields exactly `{}`. -/
theorem bufferObjectRoundTrip_parses_back {Value : Type} (C : Codec Value) (range : RangeOrder)
    (obj : List (String × Bytes)) (hrange : ∀ l, (range l).Perm l)
    (hparse : ∀ l : List (String × Bytes), l.Perm obj → ∃ parsed,
      C.object (renderObject (l.map (fun kv => (C.appendString kv.1 false, kv.2)))) = .ok parsed ∧
      parsed.Perm obj) :
    bufferObjectRoundTrip C range obj =
      renderObject ((range obj).map (fun kv => (C.appendString kv.1 false, kv.2))) ∧
    (∃ parsed, C.object (bufferObjectRoundTrip C range obj) = .ok parsed ∧ parsed.Perm obj) ∧
    (obj = [] → bufferObjectRoundTrip C range obj = ['{', '}']) := by
  have heq := bufferObjectRoundTrip_eq C range obj hrange
  refine ⟨heq, ?_, ?_⟩
  · rw [heq]
    exact hparse (range obj) (hrange obj)
  · intro h0
    rw [heq, h0, List.perm_nil.mp (hrange [])]
    rfl

/-- Witness of `bufferObjectRoundTrip_parses_back`: the mapping parsed from
`{"Name":"Simba","type":"Cat"}`, visited in reverse order. -/
theorem bufferObjectRoundTrip_parses_back_witness :
    bufferObjectRoundTrip Fixture.codec List.reverse
        [("Name", "\"Simba\"".toList), ("type", "\"Cat\"".toList)] =
      "\x7b\"type\":\"Cat\",\"Name\":\"Simba\"\x7d".toList ∧
    ∃ parsed, Fixture.object (bufferObjectRoundTrip Fixture.codec List.reverse
        [("Name", "\"Simba\"".toList), ("type", "\"Cat\"".toList)]) = .ok parsed ∧
      parsed.Perm [("Name", "\"Simba\"".toList), ("type", "\"Cat\"".toList)] :=
  ⟨rfl, (bufferObjectRoundTrip_parses_back Fixture.codec List.reverse
    [("Name", "\"Simba\"".toList), ("type", "\"Cat\"".toList)]
    (fun l => List.reverse_perm l)
    (fun l hl => by
      rcases perm_pair _ _ l hl with rfl | rfl
      · exact ⟨_, rfl, List.Perm.refl _⟩
      · exact ⟨_, rfl, List.Perm.swap _ _ _⟩)).2.1⟩

end Enum

namespace Enum

/-! ## Registration: what a successful call leaves behind -/

theorem getLast?_cons_or {α : Type} (a : α) (l : List α) (x : Option α) :
    ((a :: l).getLast?).or x = l.getLast?.or (some a) := by
  cases l with
  | nil => simp
  | cons b r =>
      rw [List.getLast?_cons_cons]
      cases h : (b :: r).getLast? with
      | none => simp [List.getLast?_eq_none_iff] at h
      | some y => simp

theorem applyAll_ok (opts : List (Option optFunc)) (c : enumCfg) (hnn : ∀ o ∈ opts, o ≠ none) :
    ∃ c1, applyAll opts c = .ok c1 := by
  induction opts generalizing c with
  | nil => exact ⟨c, rfl⟩
  | cons o rest ih =>
      cases o with
      | none => exact absurd rfl (hnn none (List.mem_cons_self _ _))
      | some f =>
          obtain ⟨c1, h1⟩ := ih (f.apply c) (fun o ho => hnn o (List.mem_cons_of_mem _ ho))
          exact ⟨c1, by simpa [applyAll, applyOption] using h1⟩

theorem applyAll_cons_some (f : optFunc) (rest : List (Option optFunc)) (c : enumCfg) :
    applyAll (some f :: rest) c = applyAll rest (f.apply c) := by
  simp [applyAll, applyOption]

theorem applyAll_cons_none (rest : List (Option optFunc)) (c c1 : enumCfg) :
    applyAll (none :: rest) c ≠ .ok c1 := by
  simp [applyAll, applyOption]

/-- The strategy after the option loop: the last strategy option wins, else the earlier one
stays. -/
theorem applyAll_jsonOpts (opts : List (Option optFunc)) (c c1 : enumCfg)
    (h : applyAll opts c = .ok c1) : c1.jsonOpts = (lastStrategy opts).or c.jsonOpts := by
  induction opts generalizing c with
  | nil =>
      simp only [applyAll, Except.ok.injEq] at h
      simp [lastStrategy, ← h]
  | cons o rest ih =>
      cases o with
      | none => exact absurd h (applyAll_cons_none rest c c1)
      | some f =>
          rw [applyAll_cons_some] at h
          have ih1 := ih (f.apply c) h
          unfold lastStrategy at ih1 ⊢
          cases f <;>
            simp only [List.filterMap_cons, strategyOf, optFunc.apply, getLast?_cons_or] at ih1 ⊢ <;>
            exact ih1

/-- The flags after the option loop: set when they were set or the loop holds the option. -/
theorem applyAll_flags (opts : List (Option optFunc)) (c c1 : enumCfg)
    (h : applyAll opts c = .ok c1) :
    (c1.sealed = true ↔ c.sealed = true ∨ Sealed ∈ opts) ∧
    (c1.noZero = true ↔ c.noZero = true ∨ NoZero ∈ opts) := by
  induction opts generalizing c with
  | nil =>
      simp only [applyAll, Except.ok.injEq] at h
      simp [← h]
  | cons o rest ih =>
      cases o with
      | none => exact absurd h (applyAll_cons_none rest c c1)
      | some f =>
          rw [applyAll_cons_some] at h
          obtain ⟨h1, h2⟩ := ih (f.apply c) h
          rw [h1, h2]
          cases f <;> simp [optFunc.apply, Sealed, NoZero, or_assoc]

/-- The maps after the option loop: the name-to-type map is untouched, and a type is named by
the last `Rename` for it, else as before. -/
theorem applyAll_maps (opts : List (Option optFunc)) (c c1 : enumCfg) (m : RType)
    (h : applyAll opts c = .ok c1) :
    c1.fromNameToType = c.fromNameToType ∧
    c1.fromTypeToName m = (lastRename m opts).or (c.fromTypeToName m) := by
  induction opts generalizing c with
  | nil =>
      simp only [applyAll, Except.ok.injEq] at h
      simp [lastRename, ← h]
  | cons o rest ih =>
      cases o with
      | none => exact absurd h (applyAll_cons_none rest c c1)
      | some f =>
          rw [applyAll_cons_some] at h
          obtain ⟨h1, h2⟩ := ih (f.apply c) h
          rw [h1, h2]
          unfold lastRename
          cases f with
          | Rename t name =>
              by_cases htm : t = m
              · have hmt : m = t := htm.symm
                simp [optFunc.apply, renameOf, htm, mapSet, getLast?_cons_or]
              · have hmt : ¬ m = t := fun h => htm h.symm
                simp [optFunc.apply, renameOf, htm, hmt, mapSet]
          | NoZero => simp [optFunc.apply, renameOf]
          | Sealed => simp [optFunc.apply, renameOf]
          | Adjacently a b => simp [optFunc.apply, renameOf]
          | Externally => simp [optFunc.apply, renameOf]
          | Internally a => simp [optFunc.apply, renameOf]

/-- A `Variant` call with an implementing member and no nil option returns: it reads the
Declaration `d0` (the registered one, or the one `Declare` has just made, without variants),
runs the option loop to `c1` and stores the result. -/
theorem Variant_succeeds (I : RType → RType → Bool) (g : declContext) (e m : RType)
    (opts : List (Option optFunc)) (hi : I m e = true) (hnn : ∀ o ∈ opts, o ≠ none) :
    ∃ g0 d0 c1,
      (∀ d, DeclarationOf g e = some d → d0 = d) ∧
      (DeclarationOf g e = none → d0.variants = []) ∧
      applyAll opts { d0.cfg with fromTypeToName := mapSet d0.cfg.fromTypeToName m m.Name } =
        .ok c1 ∧
      Variant I g e m opts = .ok ⟨mapSet g0 e
        { d0 with
          variants := d0.variants.filter (fun r => !decide (m = r)) ++ [m],
          cfg := { c1 with
            fromNameToType := mapSet c1.fromNameToType ((c1.fromTypeToName m).getD "") m } }⟩ := by
  cases hd : DeclarationOf g e with
  | some d =>
      obtain ⟨c1, h1⟩ := applyAll_ok opts
        { d.cfg with fromTypeToName := mapSet d.cfg.fromTypeToName m m.Name } hnn
      refine ⟨g.decls, d, c1, ?_, ?_, h1, ?_⟩
      · intro d2 h2; cases h2; rfl
      · intro h2; cases h2
      · rw [Variant_of_some I g e m _ d hd, hi]
        simp [addVariant, h1]
  | none =>
      obtain ⟨c0, h0⟩ := applyAll_ok opts defaultCfg hnn
      obtain ⟨c1, h1⟩ := applyAll_ok opts
        { c0 with fromTypeToName := mapSet c0.fromTypeToName m m.Name } hnn
      refine ⟨mapSet g.decls e { enumType := e, variants := [], cfg := c0 },
        { enumType := e, variants := [], cfg := c0 }, c1, ?_, ?_, h1, ?_⟩
      · intro d2 h2; cases h2
      · intro _; rfl
      · rw [Variant_of_none I g e m opts c0 hd h0, hi]
        simp [addVariant, h1]

end Enum

namespace Enum

/-! ## Registration: the claims on `Variant` -/

/-- C17: a `Variant[I, M]` call with an implementing member and no nil option returns, and the
variant list it stores is the previous list (empty when there was no Declaration) with every
occurrence of `M` removed, followed by `M`: `M` occurs once and last, the other variants keep
their order, and a list without duplicates stays without duplicates. Registering `Dog` then
`Cat` from an empty table yields the order `Dog`, `Cat`. -/
theorem Variant_replaces_duplicate (I : RType → RType → Bool) (g : declContext) (e m : RType)
    (opts : List (Option optFunc)) (hi : I m e = true) (hnn : ∀ o ∈ opts, o ≠ none) :
    (∃ g1 d1, Variant I g e m opts = .ok g1 ∧ DeclarationOf g1 e = some d1 ∧
      d1.variants =
        (((DeclarationOf g e).map (fun d => d.variants)).getD []).filter
          (fun r => !decide (m = r)) ++ [m] ∧
      d1.variants.count m = 1 ∧ d1.variants.getLast? = some m ∧
      d1.variants.filter (fun r => !decide (m = r)) =
        (((DeclarationOf g e).map (fun d => d.variants)).getD []).filter
          (fun r => !decide (m = r)) ∧
      ((((DeclarationOf g e).map (fun d => d.variants)).getD []).Nodup → d1.variants.Nodup)) ∧
    (∃ g2 d2, VariantAll Fixture.Implements Fixture.noDecls Fixture.Pet
        [(Fixture.Dog, []), (Fixture.Cat, [])] = .ok g2 ∧
      DeclarationOf g2 Fixture.Pet = some d2 ∧ d2.variants = [Fixture.Dog, Fixture.Cat]) := by
  refine ⟨?_, _, _, rfl, rfl, rfl⟩
  obtain ⟨g0, d0, c1, hsome, hnone, _, hv⟩ := Variant_succeeds I g e m opts hi hnn
  have hprev : ((DeclarationOf g e).map (fun d => d.variants)).getD [] = d0.variants := by
    cases hd : DeclarationOf g e with
    | some d => simp [hsome d hd]
    | none => simp [hnone hd]
  rw [hprev]
  refine ⟨_, _, hv, DeclarationOf_mapSet _ _ _, rfl, ?_, ?_, ?_, ?_⟩
  · have h0 : (d0.variants.filter (fun r => !decide (m = r))).count m = 0 := by
      rw [List.count_eq_zero]
      intro hmem
      simp [List.mem_filter] at hmem
    simp [List.count_append, h0]
  · simp
  · simp [List.filter_append, List.filter_filter]
  · intro hnd
    refine List.Nodup.append (hnd.filter _) (List.nodup_singleton m) ?_
    intro x hx hxm
    simp only [List.mem_singleton] at hxm
    subst hxm
    simp [List.mem_filter] at hx

/-- Witness of `Variant_replaces_duplicate`: registering `Dog` again in a `Pet` declared with
`Dog` and `Cat` moves it to the end. -/
theorem Variant_replaces_duplicate_witness :
    ∃ g1 d1, Variant Fixture.Implements
        (Fixture.table Fixture.Pet [Fixture.Dog, Fixture.Cat] JSON.ExternallyOptions)
        Fixture.Pet Fixture.Dog [] = .ok g1 ∧
      DeclarationOf g1 Fixture.Pet = some d1 ∧ d1.variants = [Fixture.Cat, Fixture.Dog] := by
  obtain ⟨g1, d1, h1, h2, h3, _⟩ := (Variant_replaces_duplicate Fixture.Implements
    (Fixture.table Fixture.Pet [Fixture.Dog, Fixture.Cat] JSON.ExternallyOptions)
    Fixture.Pet Fixture.Dog [] (by decide) (by simp)).1
  exact ⟨g1, d1, h1, h2, h3⟩

end Enum

namespace Enum

/-- C18 (amended): a `Variant[I, M](opts...)` call on an existing Declaration, with an
implementing member and no nil option, returns, and the options have been applied in order to
the whole Declaration: the tagging strategy is the one selected by the last of the
Externally / Adjacently / Internally options in `opts`, and the earlier strategy when `opts`
holds none; the sealed flag is set afterwards exactly when it was set before or `opts` holds
`Sealed()`, and the noZero flag exactly when it was set before or `opts` holds `NoZero()`. -/
theorem Variant_options_override (I : RType → RType → Bool) (g : declContext) (e m : RType)
    (opts : List (Option optFunc)) (d : Declaration) (hd : DeclarationOf g e = some d)
    (hi : I m e = true) (hnn : ∀ o ∈ opts, o ≠ none) :
    ∃ g1 d1, Variant I g e m opts = .ok g1 ∧ DeclarationOf g1 e = some d1 ∧
      d1.JSON = (lastStrategy opts).or d.JSON ∧
      (d1.Sealed = true ↔ d.Sealed = true ∨ Sealed ∈ opts) ∧
      (d1.NoZero = true ↔ d.NoZero = true ∨ NoZero ∈ opts) := by
  obtain ⟨g0, d0, c1, hsome, _, hc, hv⟩ := Variant_succeeds I g e m opts hi hnn
  have hd0 : d0 = d := hsome d hd
  subst hd0
  have hj := applyAll_jsonOpts opts _ c1 hc
  obtain ⟨hs, hz⟩ := applyAll_flags opts _ c1 hc
  exact ⟨_, _, hv, DeclarationOf_mapSet _ _ _, hj, hs, hz⟩

/-- Witness of `Variant_options_override`: on a `Pet` declared with `Dog` under Externally,
neither sealed nor noZero, the call `Variant[Pet, Cat](Internally("type"), Sealed(),
Adjacently("kind", "obj"))` leaves the strategy of its last strategy option, Adjacently, sets
the sealed flag and leaves the noZero flag unset. -/
theorem Variant_options_override_witness :
    ∃ g1 d1, Variant Fixture.Implements
        (Fixture.table Fixture.Pet [Fixture.Dog] JSON.ExternallyOptions)
        Fixture.Pet Fixture.Cat [Internally "type", Sealed, Adjacently "kind" "obj"] = .ok g1 ∧
      DeclarationOf g1 Fixture.Pet = some d1 ∧
      d1.JSON = some (JSON.AdjacentlyOptions "kind" "obj") ∧
      d1.Sealed = true ∧ d1.NoZero = false := by
  obtain ⟨g1, d1, h1, h2, h3, h4, h5⟩ := Variant_options_override Fixture.Implements
    (Fixture.table Fixture.Pet [Fixture.Dog] JSON.ExternallyOptions)
    Fixture.Pet Fixture.Cat [Internally "type", Sealed, Adjacently "kind" "obj"]
    (Fixture.declOf Fixture.Pet [Fixture.Dog] JSON.ExternallyOptions)
    rfl (by decide) (by decide)
  refine ⟨g1, d1, h1, h2, h3, h4.2 (Or.inr (by decide)), ?_⟩
  cases hz : d1.NoZero with
  | false => rfl
  | true => exact absurd (h5.1 hz) (by decide)

/-- C18 (counterexample): `Variant[Pet, Cat](NoZero())` carries no strategy option, yet the
noZero flag of the Declaration changes from unset to set. -/
theorem Variant_NoZero_changes_flag :
    lastStrategy [NoZero] = none ∧
    (Fixture.declOf Fixture.Pet [Fixture.Dog] (JSON.AdjacentlyOptions "kind" "obj")).NoZero =
      false ∧
    ∃ g1 d1, Variant Fixture.Implements
        (Fixture.table Fixture.Pet [Fixture.Dog] (JSON.AdjacentlyOptions "kind" "obj"))
        Fixture.Pet Fixture.Cat [NoZero] = .ok g1 ∧
      DeclarationOf g1 Fixture.Pet = some d1 ∧ d1.NoZero = true ∧
      ¬ (d1.JSON =
          (Fixture.declOf Fixture.Pet [Fixture.Dog] (JSON.AdjacentlyOptions "kind" "obj")).JSON ∧
        d1.Sealed =
          (Fixture.declOf Fixture.Pet [Fixture.Dog] (JSON.AdjacentlyOptions "kind" "obj")).Sealed ∧
        d1.NoZero =
          (Fixture.declOf Fixture.Pet [Fixture.Dog] (JSON.AdjacentlyOptions "kind" "obj")).NoZero) :=
  ⟨rfl, rfl, _, _, rfl, rfl, rfl, fun h => by
    have h3 := h.2.2
    revert h3
    decide⟩

/-- C20: a `Variant[I, M](opts...)` call with an implementing member and no nil option
returns, and right after it `M` is named `n` in the type-to-name map, where `n` is the name
given by the last `Rename[M]` in `opts`, or the type name of `M` when there is none, and the
name-to-type map sends `n` to `M`. -/
theorem Variant_member_resolvable (I : RType → RType → Bool) (g : declContext) (e m : RType)
    (opts : List (Option optFunc)) (hi : I m e = true) (hnn : ∀ o ∈ opts, o ≠ none) :
    ∃ g1 d1, Variant I g e m opts = .ok g1 ∧ DeclarationOf g1 e = some d1 ∧
      d1.Name m = some ((lastRename m opts).getD m.Name) ∧
      d1.Type ((lastRename m opts).getD m.Name) = some m := by
  obtain ⟨g0, d0, c1, _, _, hc, hv⟩ := Variant_succeeds I g e m opts hi hnn
  have hm := (applyAll_maps opts _ c1 m hc).2
  have hname : c1.fromTypeToName m = some ((lastRename m opts).getD m.Name) := by
    rw [hm]
    cases lastRename m opts <;> simp [mapSet]
  refine ⟨_, _, hv, DeclarationOf_mapSet _ _ _, ?_, ?_⟩
  · simpa [Declaration.Name] using hname
  · simp [Declaration.Type, hname, mapSet]

/-- Witness of `Variant_member_resolvable`: `Variant[Pet, Cat](Rename[Cat]("a"),
Rename[Dog]("d"), Rename[Cat]("kitty"))` names `Cat` "kitty" in both maps. -/
theorem Variant_member_resolvable_witness :
    ∃ g1 d1, Variant Fixture.Implements Fixture.noDecls Fixture.Pet Fixture.Cat
        [Rename Fixture.Cat "a", Rename Fixture.Dog "d", Rename Fixture.Cat "kitty"] = .ok g1 ∧
      DeclarationOf g1 Fixture.Pet = some d1 ∧
      d1.Name Fixture.Cat = some "kitty" ∧ d1.Type "kitty" = some Fixture.Cat :=
  Variant_member_resolvable Fixture.Implements Fixture.noDecls Fixture.Pet Fixture.Cat
    [Rename Fixture.Cat "a", Rename Fixture.Dog "d", Rename Fixture.Cat "kitty"]
    (by decide) (by simp [Rename])

end Enum

namespace Enum

/-! ## Consistency of the two name maps -/

theorem renamesOnly_ne_none (m : RType) (opts : List (Option optFunc))
    (h : renamesOnly m opts) : ∀ o ∈ opts, o ≠ none := by
  intro o ho hn
  obtain ⟨f, hf, _⟩ := h o ho
  rw [hn] at hf
  cases hf

theorem lastRename_other (m t : RType) (opts : List (Option optFunc))
    (h : renamesOnly m opts) (htm : t ≠ m) : lastRename t opts = none := by
  have hnil : opts.filterMap (renameOf t) = [] := by
    rw [List.filterMap_eq_nil_iff]
    intro o ho
    obtain ⟨f, rfl, hf⟩ := h o ho
    cases f with
    | Rename t1 n =>
        have h1 : t1 = m := hf t1 n rfl
        have h2 : ¬ t1 = t := fun h3 => htm (h3 ▸ h1)
        simp [renameOf, h2]
    | NoZero => rfl
    | Sealed => rfl
    | Adjacently a b => rfl
    | Externally => rfl
    | Internally a => rfl
  simp [lastRename, hnil]

/-- One registration of `m` keeps the invariant, when on entry the maps agree on every other
type, no name is left pointing to `m` but the one it is registered under now, and that name is
the name of no other type. -/
theorem addVariant_NamedBy (R : RType → String → Prop) (d : Declaration) (m : RType)
    (opts : List (Option optFunc)) (hopts : renamesOnly m opts)
    (h1 : ∀ t n, t ≠ m → (d.Name t = some n ↔ d.Type n = some t))
    (h2 : ∀ n, d.Type n = some m → n = registeredName m opts)
    (h3 : ∀ t n, t ≠ m → d.Name t = some n → R t n)
    (hR : R m (registeredName m opts))
    (hinj : ∀ t, R t (registeredName m opts) → t = m) :
    ∃ d1, addVariant true d m opts = .ok d1 ∧ NamedBy R d1 := by
  obtain ⟨c1, hc⟩ := applyAll_ok opts
    { d.cfg with fromTypeToName := mapSet d.cfg.fromTypeToName m m.Name }
    (renamesOnly_ne_none m opts hopts)
  have hN : c1.fromNameToType = d.cfg.fromNameToType := (applyAll_maps opts _ c1 m hc).1
  have hm : c1.fromTypeToName m = some (registeredName m opts) := by
    rw [(applyAll_maps opts _ c1 m hc).2]
    unfold registeredName
    cases lastRename m opts <;> simp [mapSet]
  have ht : ∀ t, t ≠ m → c1.fromTypeToName t = d.cfg.fromTypeToName t := by
    intro t htm
    rw [(applyAll_maps opts _ c1 t hc).2, lastRename_other m t opts hopts htm]
    simp [mapSet, htm]
  refine ⟨_, by simp only [addVariant, hc]; rfl, ?_, ?_⟩
  · intro t n
    simp only [Declaration.Name, Declaration.Type, hN, hm, Option.getD_some, mapSet]
    by_cases htm : t = m
    · subst htm
      rw [hm]
      by_cases hn : n = registeredName t opts
      · simp [hn]
      · simp only [hn, if_false, Option.some.injEq]
        constructor
        · intro h; exact absurd h.symm hn
        · intro h; exact absurd (h2 n h) hn
    · rw [ht t htm]
      by_cases hn : n = registeredName m opts
      · simp only [hn, if_true, Option.some.injEq]
        constructor
        · intro h
          exact absurd (hinj t (h3 t _ htm h)) htm
        · intro h; exact absurd h.symm htm
      · simp only [hn, if_false]
        exact h1 t n htm
  · intro t n
    simp only [Declaration.Name]
    by_cases htm : t = m
    · subst htm
      rw [hm]
      intro h
      cases h
      exact hR
    · rw [ht t htm]
      exact h3 t n htm

theorem Variant_NamedBy (R : RType → String → Prop) (I : RType → RType → Bool)
    (g : declContext) (e m : RType) (opts : List (Option optFunc)) (hi : I m e = true)
    (hopts : renamesOnly m opts) (hR : R m (registeredName m opts))
    (hfun : ∀ t n1 n2, R t n1 → R t n2 → n1 = n2)
    (hinj : ∀ t1 t2 n, R t1 n → R t2 n → t1 = t2)
    (hg : ∀ d, DeclarationOf g e = some d → NamedBy R d) :
    ∃ g1 d1, Variant I g e m opts = .ok g1 ∧ DeclarationOf g1 e = some d1 ∧ NamedBy R d1 := by
  cases hd : DeclarationOf g e with
  | some d =>
      obtain ⟨hcons, hnames⟩ := hg d hd
      obtain ⟨d1, h1, hinv⟩ := addVariant_NamedBy R d m opts hopts
        (fun t n _ => hcons t n)
        (fun n hn => hfun m _ _ (hnames m n ((hcons m n).2 hn)) hR)
        (fun t n _ h => hnames t n h) hR (fun t h => hinj t m _ h hR)
      refine ⟨⟨mapSet g.decls e d1⟩, d1, ?_, DeclarationOf_mapSet _ _ _, hinv⟩
      rw [Variant_of_some I g e m _ d hd, hi, h1]
  | none =>
      obtain ⟨c0, hc0⟩ := applyAll_ok opts defaultCfg (renamesOnly_ne_none m opts hopts)
      have hN : c0.fromNameToType = fun _ => none := (applyAll_maps opts _ c0 m hc0).1
      have ht : ∀ t, t ≠ m → c0.fromTypeToName t = none := by
        intro t htm
        rw [(applyAll_maps opts _ c0 t hc0).2, lastRename_other m t opts hopts htm]
        rfl
      obtain ⟨d1, h1, hinv⟩ := addVariant_NamedBy R
        { enumType := e, variants := [], cfg := c0 } m opts hopts
        (fun t n htm => by simp [Declaration.Name, Declaration.Type, hN, ht t htm])
        (fun n hn => by simp [Declaration.Type, hN] at hn)
        (fun t n htm h => by simp [Declaration.Name, ht t htm] at h)
        hR (fun t h => hinj t m _ h hR)
      refine ⟨⟨mapSet (mapSet g.decls e { enumType := e, variants := [], cfg := c0 }) e d1⟩, d1,
        ?_, DeclarationOf_mapSet _ _ _, hinv⟩
      rw [Variant_of_none I g e m opts c0 hd hc0, hi, h1]

theorem VariantAll_NamedBy (R : RType → String → Prop) (I : RType → RType → Bool) (e : RType)
    (hfun : ∀ t n1 n2, R t n1 → R t n2 → n1 = n2)
    (hinj : ∀ t1 t2 n, R t1 n → R t2 n → t1 = t2)
    (calls : List (RType × List (Option optFunc))) (g : declContext)
    (hc : ∀ c ∈ calls, I c.1 e = true ∧ renamesOnly c.1 c.2 ∧ R c.1 (registeredName c.1 c.2))
    (hg : ∀ d, DeclarationOf g e = some d → NamedBy R d) :
    ∃ g1, VariantAll I g e calls = .ok g1 ∧
      ∀ d, DeclarationOf g1 e = some d → NamedBy R d := by
  induction calls generalizing g with
  | nil => exact ⟨g, rfl, hg⟩
  | cons c rest ih =>
      obtain ⟨hi, ho, hR⟩ := hc c (List.mem_cons_self _ _)
      obtain ⟨g1, d1, h1, hd1, hinv⟩ :=
        Variant_NamedBy R I g e c.1 c.2 hi ho hR hfun hinj hg
      obtain ⟨g2, h2, hinv2⟩ := ih g1 (fun c hc1 => hc c (List.mem_cons_of_mem _ hc1))
        (fun d hd => by rw [hd1] at hd; cases hd; exact hinv)
      exact ⟨g2, by simp only [VariantAll, h1]; exact h2, hinv2⟩

/-- C5 (amended): start from a table with no Declaration for the sum type and make any sequence
of `Variant` calls whose member types implement it, whose options hold no nil option and no
`Rename` of a type other than the member of the call, and in which two calls register under the
same name exactly when they register the same member. Then every call succeeds, and in the
resulting Declaration the type-to-name map sends `t` to `n` if and only if the name-to-type
map sends `n` to `t`. -/
theorem VariantAll_consistent (I : RType → RType → Bool) (g : declContext) (e : RType)
    (calls : List (RType × List (Option optFunc)))
    (hfresh : DeclarationOf g e = none)
    (himpl : ∀ c ∈ calls, I c.1 e = true)
    (hopts : ∀ c ∈ calls, renamesOnly c.1 c.2)
    (hname : ∀ c1 ∈ calls, ∀ c2 ∈ calls,
      (registeredName c1.1 c1.2 = registeredName c2.1 c2.2 ↔ c1.1 = c2.1)) :
    ∃ g1, VariantAll I g e calls = .ok g1 ∧
      ∀ d, DeclarationOf g1 e = some d → ∀ t n, d.Name t = some n ↔ d.Type n = some t := by
  obtain ⟨g1, h1, h2⟩ := VariantAll_NamedBy
    (fun t n => ∃ c ∈ calls, c.1 = t ∧ registeredName c.1 c.2 = n) I e
    (by
      rintro t n1 n2 ⟨c1, hc1, rfl, rfl⟩ ⟨c2, hc2, ht, rfl⟩
      exact (hname c1 hc1 c2 hc2).2 ht.symm)
    (by
      rintro t1 t2 n ⟨c1, hc1, rfl, rfl⟩ ⟨c2, hc2, rfl, hn⟩
      exact (hname c1 hc1 c2 hc2).1 hn.symm)
    calls g (fun c hc => ⟨himpl c hc, hopts c hc, c, hc, rfl, rfl⟩)
    (fun d hd => by rw [hfresh] at hd; cases hd)
  exact ⟨g1, h1, fun d hd => (h2 d hd).1⟩

/-- Witness of `VariantAll_consistent`: `Variant[Pet, Dog](Rename[Dog]("hund"))`, then
`Variant[Pet, Cat](Adjacently("kind", "obj"), Rename[Cat]("katze"))`, then `Dog` once more
under the same name, on an empty table. -/
theorem VariantAll_consistent_witness :
    ∃ g1, VariantAll Fixture.Implements Fixture.noDecls Fixture.Pet
        [(Fixture.Dog, [Rename Fixture.Dog "hund"]),
         (Fixture.Cat, [Adjacently "kind" "obj", Rename Fixture.Cat "katze"]),
         (Fixture.Dog, [Rename Fixture.Dog "hund"])] = .ok g1 ∧
      ∀ d, DeclarationOf g1 Fixture.Pet = some d →
        ∀ t n, d.Name t = some n ↔ d.Type n = some t :=
  VariantAll_consistent Fixture.Implements Fixture.noDecls Fixture.Pet
    [(Fixture.Dog, [Rename Fixture.Dog "hund"]),
     (Fixture.Cat, [Adjacently "kind" "obj", Rename Fixture.Cat "katze"]),
     (Fixture.Dog, [Rename Fixture.Dog "hund"])] rfl (by decide)
    (by simp [renamesOnly, Rename, Adjacently]) (by decide)

/-- C5 (counterexample): the maps end up inconsistent in three ways. A `Rename` of another type:
after `Variant[Pet, Dog]()` and `Variant[Pet, Cat](Rename[Dog]("Hund"))`, `Dog` is named "Hund"
while the name-to-type map has no entry "Hund". A changed name: after registering `Cat` as "a"
and again as "b", the name "a" still resolves to `Cat`, which is named "b". A shared name: after
registering `Dog` and then `Cat` as "animal", `Dog` is named "animal", which resolves to
`Cat`. -/
theorem name_maps_inconsistent :
    (∃ g1 d, VariantAll Fixture.Implements Fixture.noDecls Fixture.Pet
        [(Fixture.Dog, []), (Fixture.Cat, [Rename Fixture.Dog "Hund"])] = .ok g1 ∧
      DeclarationOf g1 Fixture.Pet = some d ∧
      d.Name Fixture.Dog = some "Hund" ∧ d.Type "Hund" = none ∧
      ¬ (∀ t n, d.Name t = some n ↔ d.Type n = some t)) ∧
    (∃ g1 d, VariantAll Fixture.Implements Fixture.noDecls Fixture.Pet
        [(Fixture.Cat, [Rename Fixture.Cat "a"]), (Fixture.Cat, [Rename Fixture.Cat "b"])] =
          .ok g1 ∧
      DeclarationOf g1 Fixture.Pet = some d ∧
      d.Type "a" = some Fixture.Cat ∧ d.Name Fixture.Cat = some "b" ∧
      ¬ (∀ t n, d.Name t = some n ↔ d.Type n = some t)) ∧
    (∃ g1 d, VariantAll Fixture.Implements Fixture.noDecls Fixture.Pet
        [(Fixture.Dog, [Rename Fixture.Dog "animal"]),
         (Fixture.Cat, [Rename Fixture.Cat "animal"])] = .ok g1 ∧
      DeclarationOf g1 Fixture.Pet = some d ∧
      d.Name Fixture.Dog = some "animal" ∧ d.Type "animal" = some Fixture.Cat ∧
      ¬ (∀ t n, d.Name t = some n ↔ d.Type n = some t)) := by
  refine ⟨⟨_, _, rfl, rfl, rfl, rfl, ?_⟩, ⟨_, _, rfl, rfl, rfl, rfl, ?_⟩,
    ⟨_, _, rfl, rfl, rfl, rfl, ?_⟩⟩
  · intro h
    have h1 := (h Fixture.Dog "Hund").1 (by decide)
    revert h1
    decide
  · intro h
    have h1 := (h Fixture.Cat "a").2 (by decide)
    revert h1
    decide
  · intro h
    have h1 := (h Fixture.Dog "animal").1 (by decide)
    revert h1
    decide

end Enum

namespace Enum

/-! ## The table at a panic of `Variant` -/

theorem applyToState_table_ne (e : RType) (f : enumCfg → enumCfg) (s : VariantState) (k : RType)
    (hk : k ≠ e) : (applyToState e f s).table.decls k = s.table.decls k := by
  simp [applyToState, hk]

theorem runOptions_ok (e : RType) (opts : List (Option optFunc)) (s : VariantState)
    (c : enumCfg) (h : applyAll opts s.decl.cfg = .ok c) :
    ∃ s1, runOptions e opts s = .done s1 ∧ s1.decl = { s.decl with cfg := c } ∧
      ∀ k, k ≠ e → s1.table.decls k = s.table.decls k := by
  induction opts generalizing s with
  | nil =>
      simp only [applyAll, Except.ok.injEq] at h
      exact ⟨s, rfl, by rw [← h], fun _ _ => rfl⟩
  | cons o rest ih =>
      cases o with
      | none => exact absurd h (applyAll_cons_none rest _ c)
      | some f =>
          rw [applyAll_cons_some] at h
          obtain ⟨s1, h1, h2, h3⟩ := ih (applyToState e f.apply s) h
          refine ⟨s1, h1, h2, ?_⟩
          intro k hk
          rw [h3 k hk, applyToState_table_ne e _ s k hk]

theorem runOptions_error (e : RType) (opts : List (Option optFunc)) (s : VariantState)
    (msg : String) (h : applyAll opts s.decl.cfg = .error msg) :
    ∃ st, runOptions e opts s = .panic msg st := by
  induction opts generalizing s with
  | nil => simp [applyAll] at h
  | cons o rest ih =>
      cases o with
      | none =>
          simp only [applyAll, applyOption, Except.error.injEq] at h
          exact ⟨some s, by rw [← h]; rfl⟩
      | some f =>
          rw [applyAll_cons_some] at h
          exact ih (applyToState e f.apply s) h

/-- The run of the critical section ends as `addVariant` does: normally with the table that
`Variant` stores, or in a panic with the same message. -/
theorem runLocked_spec (impl : Bool) (e m : RType) (opts : List (Option optFunc))
    (s : VariantState) :
    (∀ d1, addVariant impl s.decl m opts = .ok d1 →
      ∃ s1, runLocked impl e m opts s = .done s1 ∧ s1.table = ⟨mapSet s.table.decls e d1⟩) ∧
    (∀ msg, addVariant impl s.decl m opts = .error msg →
      ∃ st, runLocked impl e m opts s = .panic msg st) := by
  cases impl with
  | false =>
      constructor
      · intro d1 h; simp [addVariant] at h
      · intro msg h
        simp only [addVariant, Bool.not_false, if_true, Except.error.injEq] at h
        exact ⟨some s, by rw [← h]; rfl⟩
  | true =>
      cases hA : applyAll opts
          { s.decl.cfg with fromTypeToName := mapSet s.decl.cfg.fromTypeToName m m.Name } with
      | error msg0 =>
          constructor
          · intro d1 h; simp [addVariant, hA] at h
          · intro msg h
            simp only [addVariant, Bool.not_true, Bool.false_eq_true, if_false, hA,
              Except.error.injEq] at h
            obtain ⟨st, hst⟩ := runOptions_error e opts
              (applyToState e
                (fun c => { c with fromTypeToName := mapSet c.fromTypeToName m m.Name })
                { s with
                  decl := { s.decl with
                    variants := s.decl.variants.filter (fun r => !decide (m = r)) ++ [m] },
                  stored := ((s.decl.variants.filter (fun r => !decide (m = r))).map some ++
                    List.replicate (s.decl.variants.length -
                      (s.decl.variants.filter (fun r => !decide (m = r))).length) none).set
                    (s.decl.variants.filter (fun r => !decide (m = r))).length (some m) })
              msg0 hA
            refine ⟨st, ?_⟩
            simp only [runLocked, Bool.not_true, Bool.false_eq_true, if_false, hst, h]
      | ok c1 =>
          obtain ⟨s4, h4, hdecl, htab⟩ := runOptions_ok e opts
            (applyToState e
              (fun c => { c with fromTypeToName := mapSet c.fromTypeToName m m.Name })
              { s with
                decl := { s.decl with
                  variants := s.decl.variants.filter (fun r => !decide (m = r)) ++ [m] },
                stored := ((s.decl.variants.filter (fun r => !decide (m = r))).map some ++
                  List.replicate (s.decl.variants.length -
                    (s.decl.variants.filter (fun r => !decide (m = r))).length) none).set
                  (s.decl.variants.filter (fun r => !decide (m = r))).length (some m) })
            c1 hA
          constructor
          · intro d1 h
            simp only [addVariant, Bool.not_true, Bool.false_eq_true, if_false, hA,
              Except.ok.injEq] at h
            refine ⟨_, by simp only [runLocked, Bool.not_true, Bool.false_eq_true, if_false, h4]; rfl,
              ?_⟩
            simp only
            congr 1
            funext k
            by_cases hk : k = e
            · subst hk
              simp only [mapSet, if_true]
              rw [← h]
              simp [applyToState, hdecl]
            · simp only [mapSet, hk, if_false]
              rw [applyToState_table_ne e _ s4 k hk, htab k hk, applyToState_table_ne e _ _ k hk]
          · intro msg h
            simp [addVariant, hA] at h

/-- `VariantRun` ends normally exactly when `Variant` returns, with the table `Variant`
returns, and in a panic with the message of `Variant` otherwise. -/
theorem VariantRun_spec (I : RType → RType → Bool) (g : declContext) (e m : RType)
    (opts : List (Option optFunc)) :
    (∀ g1, Variant I g e m opts = .ok g1 →
      ∃ s, VariantRun I g e m opts = .done s ∧ s.table = g1) ∧
    (∀ msg, Variant I g e m opts = .error msg →
      ∃ st, VariantRun I g e m opts = .panic msg st) := by
  cases hd : DeclarationOf g e with
  | some d =>
      obtain ⟨hok, herr⟩ := runLocked_spec (I m e) e m opts ⟨g, d, d.variants.map some⟩
      rw [Variant_of_some I g e m opts d hd]
      simp only [VariantRun, hd]
      constructor
      · intro g1 h
        cases hA : addVariant (I m e) d m opts with
        | error msg => simp [hA] at h
        | ok d1 =>
            simp only [hA, Except.ok.injEq] at h
            obtain ⟨s1, h1, h2⟩ := hok d1 hA
            exact ⟨s1, h1, by rw [h2, ← h]⟩
      · intro msg h
        cases hA : addVariant (I m e) d m opts with
        | error msg0 =>
            simp only [hA, Except.error.injEq] at h
            rw [← h]
            exact herr msg0 hA
        | ok d1 => simp [hA] at h
  | none =>
      simp only [Variant, VariantRun, hd]
      cases hD : Declare g e opts with
      | error msg0 =>
          constructor
          · intro g1 h; simp at h
          · intro msg h
            simp only [Except.error.injEq] at h
            exact ⟨none, by rw [h]⟩
      | ok g2 =>
          simp only
          cases hd2 : DeclarationOf g2 e with
          | none =>
              constructor
              · intro g1 h; simp at h
              · intro msg h
                simp only [Except.error.injEq] at h
                exact ⟨none, by rw [h]⟩
          | some d =>
              obtain ⟨hok, herr⟩ := runLocked_spec (I m e) e m opts ⟨g2, d, d.variants.map some⟩
              simp only
              constructor
              · intro g1 h
                cases hA : addVariant (I m e) d m opts with
                | error msg => simp [hA] at h
                | ok d1 =>
                    simp only [hA, Except.ok.injEq] at h
                    obtain ⟨s1, h1, h2⟩ := hok d1 hA
                    exact ⟨s1, h1, by rw [h2, ← h]⟩
              · intro msg h
                cases hA : addVariant (I m e) d m opts with
                | error msg0 =>
                    simp only [hA, Except.error.injEq] at h
                    rw [← h]
                    exact herr msg0 hA
                | ok d1 => simp [hA] at h

end Enum

namespace Enum

/-- C16: when the member type does not implement the interface type, `Variant` panics; and
when the sum type already has a Declaration, the panic is the first statement of the critical
section to act: the state it is raised in has the table the call started from, so the stored
Declaration, its variant list (also as seen through the shared backing array) and both its
name maps are as they were. -/
theorem Variant_not_implementing (I : RType → RType → Bool) (g : declContext) (e m : RType)
    (opts : List (Option optFunc)) (hi : I m e = false) :
    (∃ msg, Variant I g e m opts = .error msg ∧
      ∃ st, VariantRun I g e m opts = .panic msg st) ∧
    (∀ d, DeclarationOf g e = some d →
      ∃ s d1, VariantRun I g e m opts =
          .panic "member type does not implement the enum type" (some s) ∧
        s.table = g ∧ s.stored = d.variants.map some ∧
        DeclarationOf s.table e = some d1 ∧ d1.variants = d.variants ∧
        d1.cfg.fromNameToType = d.cfg.fromNameToType ∧
        d1.cfg.fromTypeToName = d.cfg.fromTypeToName) := by
  constructor
  · have herr : ∃ msg, Variant I g e m opts = .error msg := by
      cases hd : DeclarationOf g e with
      | some d =>
          rw [Variant_of_some I g e m opts d hd, hi]
          exact ⟨_, rfl⟩
      | none =>
          unfold Variant
          simp only [hd, hi]
          cases Declare g e opts with
          | error msg => exact ⟨_, rfl⟩
          | ok g2 =>
              simp only
              cases DeclarationOf g2 e with
              | none => exact ⟨_, rfl⟩
              | some d => exact ⟨_, rfl⟩
    obtain ⟨msg, hmsg⟩ := herr
    exact ⟨msg, hmsg, (VariantRun_spec I g e m opts).2 msg hmsg⟩
  · intro d hd
    refine ⟨⟨g, d, d.variants.map some⟩, d, ?_, rfl, rfl, hd, rfl, rfl, rfl⟩
    simp [VariantRun, hd, runLocked, hi]

/-- Witness of `Variant_not_implementing`: `Variant[Pet, Dollar](Rename[Dollar]("usd"))` on a
`Pet` declared with `Dog` and `Cat`. -/
theorem Variant_not_implementing_witness :
    Fixture.Implements Fixture.Dollar Fixture.Pet = false ∧
    (∃ msg, Variant Fixture.Implements
        (Fixture.table Fixture.Pet [Fixture.Dog, Fixture.Cat] JSON.ExternallyOptions)
        Fixture.Pet Fixture.Dollar [Rename Fixture.Dollar "usd"] = .error msg ∧
      ∃ st, VariantRun Fixture.Implements
        (Fixture.table Fixture.Pet [Fixture.Dog, Fixture.Cat] JSON.ExternallyOptions)
        Fixture.Pet Fixture.Dollar [Rename Fixture.Dollar "usd"] = .panic msg st) ∧
    (∃ s d1, VariantRun Fixture.Implements
        (Fixture.table Fixture.Pet [Fixture.Dog, Fixture.Cat] JSON.ExternallyOptions)
        Fixture.Pet Fixture.Dollar [Rename Fixture.Dollar "usd"] =
          .panic "member type does not implement the enum type" (some s) ∧
      s.table = Fixture.table Fixture.Pet [Fixture.Dog, Fixture.Cat] JSON.ExternallyOptions ∧
      s.stored = [some Fixture.Dog, some Fixture.Cat] ∧
      DeclarationOf s.table Fixture.Pet = some d1 ∧
      d1.variants = [Fixture.Dog, Fixture.Cat] ∧
      d1.cfg.fromNameToType =
        (Fixture.declOf Fixture.Pet [Fixture.Dog, Fixture.Cat]
          JSON.ExternallyOptions).cfg.fromNameToType ∧
      d1.cfg.fromTypeToName =
        (Fixture.declOf Fixture.Pet [Fixture.Dog, Fixture.Cat]
          JSON.ExternallyOptions).cfg.fromTypeToName) :=
  ⟨by decide,
   (Variant_not_implementing Fixture.Implements
    (Fixture.table Fixture.Pet [Fixture.Dog, Fixture.Cat] JSON.ExternallyOptions)
    Fixture.Pet Fixture.Dollar [Rename Fixture.Dollar "usd"] (by decide)).1,
   (Variant_not_implementing Fixture.Implements
    (Fixture.table Fixture.Pet [Fixture.Dog, Fixture.Cat] JSON.ExternallyOptions)
    Fixture.Pet Fixture.Dollar [Rename Fixture.Dollar "usd"] (by decide)).2
    (Fixture.declOf Fixture.Pet [Fixture.Dog, Fixture.Cat] JSON.ExternallyOptions) rfl⟩

/-- The state left by a panic in the option loop: `Variant[Pet, Dog](Rename[Dog]("hund"),
Untagged())` on a `Pet` declared with `Dog` and `Cat` panics at the nil option after the
writes that precede it, so the stored Declaration already names `Dog` "hund" and its slice
already shows `Cat`, `Dog`. -/
theorem VariantRun_panic_in_loop_keeps_writes :
    ∃ s d1, VariantRun Fixture.Implements
        (Fixture.table Fixture.Pet [Fixture.Dog, Fixture.Cat] JSON.ExternallyOptions)
        Fixture.Pet Fixture.Dog [Rename Fixture.Dog "hund", Untagged] =
          .panic "runtime error: invalid memory address or nil pointer dereference" (some s) ∧
      s.stored = [some Fixture.Cat, some Fixture.Dog] ∧
      DeclarationOf s.table Fixture.Pet = some d1 ∧
      d1.Name Fixture.Dog = some "hund" :=
  ⟨_, _, rfl, rfl, rfl, rfl⟩

end Enum
